import Mathlib

/-!
Verification of the cell/dictionary core of a content-addressed binary-tree
("cell") engine: the bit-packing `CellBuilder`, its finalization into
immutable cells, the trie-based dictionary search, the augmented dictionary,
and the usage-tree cell wrappers.

Machine integers are modelled as `Nat` with explicit reduction modulo `2^w`
at the points where the original code performs fixed-width arithmetic
(`u8`/`u16`/`u64`/`u128` wrap-around).  Byte buffers are modelled as
`List Nat` of byte values; bit `i` of the buffer lives in byte `i / 8` at
big-endian in-byte position `7 - i % 8`.
-/

set_option maxHeartbeats 1000000
set_option maxRecDepth 10000

namespace Everscale

/-- Reduction to an unsigned 8-bit value. -/
def u8 (n : Nat) : Nat := n % 256

/-- Reduction to an unsigned 16-bit value. -/
def u16 (n : Nat) : Nat := n % 65536

/-- Reduction to an unsigned 64-bit value. -/
def u64 (n : Nat) : Nat := n % 2 ^ 64

/-- Maximum number of data bits a cell can hold (`MAX_BIT_LEN`). -/
def MAX_BIT_LEN : Nat := 1023

/-- Maximum number of child references a cell can hold (`MAX_REF_COUNT`). -/
def MAX_REF_COUNT : Nat := 4

/-- Big-endian byte decomposition of a value into `n` bytes
(`to_be_bytes` for the corresponding fixed-width integer). -/
def beBytes (v n : Nat) : List Nat :=
  (List.range n).map fun i => (v >>> (8 * (n - 1 - i))) % 256

/-- Writes the bytes `src` into `d` starting at byte index `q`
(`ptr::copy_nonoverlapping` into the data buffer). -/
def writeBytes : List Nat → Nat → List Nat → List Nat
  | d, _, [] => d
  | d, q, x :: xs => writeBytes (d.set q x) (q + 1) xs

/-- Bit `i` of a byte buffer: bit `7 - i % 8` of byte `i / 8`
(big-endian bit order inside each byte). -/
def dataBit (d : List Nat) (i : Nat) : Bool :=
  Nat.testBit (d.getD (i / 8) 0) (7 - i % 8)

@[simp] theorem beBytes_length (v n : Nat) : (beBytes v n).length = n := by
  simp [beBytes]

@[simp] theorem writeBytes_length (d : List Nat) (q : Nat) (src : List Nat) :
    (writeBytes d q src).length = d.length := by
  induction src generalizing d q with
  | nil => rfl
  | cons x xs ih => simp [writeBytes, ih]

theorem beBytes_getD (v n i : Nat) (h : i < n) :
    (beBytes v n).getD i 0 = (v >>> (8 * (n - 1 - i))) % 256 := by
  simp [beBytes, List.getD_eq_getElem?_getD, List.getElem?_map, List.getElem?_range h]

theorem getD_set_eq (d : List Nat) (q x : Nat) (h : q < d.length) :
    (d.set q x).getD q 0 = x := by
  simp [List.getD_eq_getElem?_getD, List.getElem?_set_self', h]

theorem getD_set_ne (d : List Nat) (q x i : Nat) (h : i ≠ q) :
    (d.set q x).getD i 0 = d.getD i 0 := by
  simp [List.getD_eq_getElem?_getD, List.getElem?_set_ne (fun hq => h hq.symm)]

theorem writeBytes_getD (src : List Nat) (d : List Nat) (q i : Nat)
    (hlen : q + src.length ≤ d.length) :
    (writeBytes d q src).getD i 0 =
      if q ≤ i ∧ i < q + src.length then src.getD (i - q) 0 else d.getD i 0 := by
  induction src generalizing d q with
  | nil =>
    simp only [writeBytes, List.length_nil, Nat.add_zero]
    rw [if_neg (by omega)]
  | cons x xs ih =>
    simp only [List.length_cons] at hlen
    simp only [writeBytes]
    rw [ih (d.set q x) (q + 1) (by rw [List.length_set]; omega)]
    by_cases hqi : q = i
    · subst hqi
      rw [if_neg (by omega), if_pos (by simp only [List.length_cons]; omega)]
      simpa using getD_set_eq d q x (by omega)
    · by_cases hrange : q + 1 ≤ i ∧ i < q + 1 + xs.length
      · rw [if_pos hrange, if_pos (by simp only [List.length_cons]; omega)]
        have hi : i - q = (i - (q + 1)) + 1 := by omega
        simp [hi]
      · rw [if_neg hrange, if_neg (by simp only [List.length_cons]; omega)]
        exact getD_set_ne d q x i (Ne.symm hqi)

/-- Aggregate subtree statistics (`CellTreeStats`): total bit count and
total cell count, `u64` fields in the original code. -/
structure CellTreeStats where
  bit_count : Nat
  cell_count : Nat
  deriving Repr, DecidableEq

/-- `u64`-wrapping component-wise addition of stats (`AddAssign for CellTreeStats`). -/
def addStats (a b : CellTreeStats) : CellTreeStats :=
  ⟨u64 (a.bit_count + b.bit_count), u64 (a.cell_count + b.cell_count)⟩

/-- A finalized cell: data bytes, bit length, the two descriptor bytes
`d1`/`d2`, child references and memoized subtree stats. -/
inductive Cell where
  | mk : List Nat → Nat → Nat → Nat → List Cell → CellTreeStats → Cell

def Cell.data : Cell → List Nat | ⟨d, _, _, _, _, _⟩ => d
def Cell.bit_len : Cell → Nat | ⟨_, b, _, _, _, _⟩ => b
def Cell.d1 : Cell → Nat | ⟨_, _, x, _, _, _⟩ => x
def Cell.d2 : Cell → Nat | ⟨_, _, _, x, _, _⟩ => x
def Cell.references : Cell → List Cell | ⟨_, _, _, _, r, _⟩ => r
def Cell.stats : Cell → CellTreeStats | ⟨_, _, _, _, _, s⟩ => s

/-- Level mask stored in descriptor byte `d1` (bits 5..7). -/
def Cell.level_mask (c : Cell) : Nat := c.d1 >>> 5

/-- Exotic flag stored in descriptor byte `d1` (bit 3). -/
def Cell.is_exotic (c : Cell) : Bool := c.d1.testBit 3

/-- Modelled from the spec: `CellDescriptor::compute_d1` (the descriptor
module is not among the provided sources).  The first descriptor byte
packs the reference count (bits 0..2), the exotic flag (bit 3) and the
level mask (bits 5..7). -/
def compute_d1 (level_mask : Nat) (is_exotic : Bool) (ref_count : Nat) : Nat :=
  ref_count + (if is_exotic then 8 else 0) + 32 * level_mask

/-- Modelled from the spec: `CellDescriptor::compute_d2` (the descriptor
module is not among the provided sources).  The second descriptor byte is
`floor(bit_len / 8) + ceil(bit_len / 8)`. -/
def compute_d2 (bit_len : Nat) : Nat := bit_len / 8 + (bit_len + 7) / 8

/-- The staging builder (`CellBuilder`): 128-byte data buffer, optional
level-mask override, running bit length, bounded reference vector. -/
structure CellBuilder where
  data : List Nat
  level_mask : Option Nat
  bit_len : Nat
  references : List Cell

/-- `CellBuilder::new`. -/
def CellBuilder.new : CellBuilder :=
  ⟨List.replicate 128 0, none, 0, []⟩

namespace CellBuilder

/-- `CellBuilder::store_zeroes`: advances the bit length without touching
the (already zeroed) data buffer. -/
def store_zeroes (b : CellBuilder) (bits : Nat) : CellBuilder × Bool :=
  if u16 (b.bit_len + bits) ≤ MAX_BIT_LEN then
    ({ b with bit_len := u16 (b.bit_len + bits) }, true)
  else
    (b, false)

/-- `CellBuilder::store_bit_zero`. -/
def store_bit_zero (b : CellBuilder) : CellBuilder × Bool :=
  if b.bit_len < MAX_BIT_LEN then
    ({ b with bit_len := b.bit_len + 1 }, true)
  else
    (b, false)

/-- `CellBuilder::store_bit_true`: sets bit `7 - r` of byte `q`. -/
def store_bit_true (b : CellBuilder) : CellBuilder × Bool :=
  if b.bit_len < MAX_BIT_LEN then
    let q := b.bit_len / 8
    let r := b.bit_len % 8
    ({ b with
        data := b.data.set q (b.data.getD q 0 ||| (1 <<< (7 - r)))
        bit_len := b.bit_len + 1 }, true)
  else
    (b, false)

/-- `CellBuilder::store_u8`: aligned case overwrites byte `q`; unaligned
case ORs the high bits into byte `q` and assigns the shifted rest to byte
`q + 1`. -/
def store_u8 (b : CellBuilder) (value : Nat) : CellBuilder × Bool :=
  let value := u8 value
  if u16 (b.bit_len + 8) ≤ MAX_BIT_LEN then
    let q := b.bit_len / 8
    let r := b.bit_len % 8
    let data :=
      if r = 0 then
        b.data.set q value
      else
        (b.data.set q (b.data.getD q 0 ||| (value >>> r))).set (q + 1)
          (u8 (value <<< (8 - r)))
    ({ b with data := data, bit_len := u16 (b.bit_len + 8) }, true)
  else
    (b, false)

/-- The body of the `impl_store_uint!` macro shared by
`store_u16`/`store_u32`/`store_u64`/`store_u128`: aligned case copies the
big-endian bytes; unaligned case ORs `value >> (bits - 8 + r)` into the
partial byte and copies the big-endian bytes of the wrapped
`value << (8 - r)` afterwards. -/
def impl_store_uint (b : CellBuilder) (value bytes bits : Nat) : CellBuilder × Bool :=
  if u16 (b.bit_len + bits) ≤ MAX_BIT_LEN then
    let q := b.bit_len / 8
    let r := b.bit_len % 8
    let data :=
      if r = 0 then
        writeBytes b.data q (beBytes value bytes)
      else
        writeBytes
          (b.data.set q (b.data.getD q 0 ||| u8 (value >>> (bits - 8 + r))))
          (q + 1) (beBytes ((value <<< (8 - r)) % 2 ^ bits) bytes)
    ({ b with data := data, bit_len := u16 (b.bit_len + bits) }, true)
  else
    (b, false)

/-- `CellBuilder::store_u16`. -/
def store_u16 (b : CellBuilder) (value : Nat) : CellBuilder × Bool :=
  impl_store_uint b (value % 2 ^ 16) 2 16

/-- `CellBuilder::store_u32`. -/
def store_u32 (b : CellBuilder) (value : Nat) : CellBuilder × Bool :=
  impl_store_uint b (value % 2 ^ 32) 4 32

/-- `CellBuilder::store_u64`. -/
def store_u64 (b : CellBuilder) (value : Nat) : CellBuilder × Bool :=
  impl_store_uint b (value % 2 ^ 64) 8 64

/-- `CellBuilder::store_u128`. -/
def store_u128 (b : CellBuilder) (value : Nat) : CellBuilder × Bool :=
  impl_store_uint b (value % 2 ^ 128) 16 128

/-- `CellBuilder::store_u256`: the 32-byte big-endian argument is modelled
as its numeric value below `2^256`; the unaligned path mirrors the
`hi`/`lo` `u128` split of the original code. -/
def store_u256 (b : CellBuilder) (value : Nat) : CellBuilder × Bool :=
  let value := value % 2 ^ 256
  if u16 (b.bit_len + 256) ≤ MAX_BIT_LEN then
    let q := b.bit_len / 8
    let r := b.bit_len % 8
    let data :=
      if r = 0 then
        writeBytes b.data q (beBytes value 32)
      else
        let hi := value >>> 128
        let lo := value % 2 ^ 128
        let shift := 8 - r
        let d0 := b.data.set q (b.data.getD q 0 ||| u8 (hi >>> (128 - shift)))
        let d1 := writeBytes d0 (q + 1)
          (beBytes (((hi <<< shift) % 2 ^ 128) ||| (lo >>> (128 - shift))) 16)
        writeBytes d1 (q + 17) (beBytes ((lo <<< shift) % 2 ^ 128) 16)
    ({ b with data := data, bit_len := u16 (b.bit_len + 256) }, true)
  else
    (b, false)

/-- `CellBuilder::store_small_uint`: stores the low `bits ≤ 8` bits of a
`u8` (larger widths advance over implicit zero bits first). -/
def store_small_uint (b : CellBuilder) (value bits : Nat) : CellBuilder × Bool :=
  let value := u8 value
  if bits = 0 then
    (b, true)
  else if u16 (b.bit_len + bits) ≤ MAX_BIT_LEN then
    let bl := if 8 ≤ bits then u16 (b.bit_len + (bits - 8)) else b.bit_len
    let bits := if 8 ≤ bits then 8 else bits
    let value := u8 (value <<< (8 - bits))
    let q := bl / 8
    let r := bl % 8
    let data :=
      if r = 0 then
        b.data.set q value
      else
        let d0 := b.data.set q (b.data.getD q 0 ||| (value >>> r))
        if 8 < bits + r then d0.set (q + 1) (u8 (value <<< (8 - r))) else d0
    ({ b with data := data, bit_len := u16 (bl + bits) }, true)
  else
    (b, false)

/-- `CellBuilder::store_uint`: stores the low `bits ≤ 64` bits of a `u64`
(larger widths advance over implicit zero bits first), copying only the
occupied prefix of the shifted big-endian bytes. -/
def store_uint (b : CellBuilder) (value bits : Nat) : CellBuilder × Bool :=
  let value := value % 2 ^ 64
  if bits = 0 then
    (b, true)
  else if u16 (b.bit_len + bits) ≤ MAX_BIT_LEN then
    let bl := if 64 ≤ bits then u16 (b.bit_len + (bits - 64)) else b.bit_len
    let bits := if 64 ≤ bits then 64 else bits
    let value := (value <<< (64 - bits)) % 2 ^ 64
    let q := bl / 8
    let r := bl % 8
    let data :=
      if r = 0 then
        writeBytes b.data q ((beBytes value 8).take ((bits + 7) / 8))
      else
        let shift := 8 - r
        let d0 := b.data.set q (b.data.getD q 0 ||| u8 (value >>> (64 - shift)))
        if shift ≤ bits ∧ 0 < bits - shift then
          writeBytes d0 (q + 1)
            ((beBytes ((value <<< shift) % 2 ^ 64) 8).take ((bits - shift + 7) / 8))
        else
          d0
    ({ b with data := data, bit_len := u16 (bl + bits) }, true)
  else
    (b, false)

/-- `CellBuilder::store_reference`: appends a child reference while fewer
than `MAX_REF_COUNT` are present. -/
def store_reference (b : CellBuilder) (cell : Cell) : CellBuilder × Bool :=
  if b.references.length < MAX_REF_COUNT then
    ({ b with references := b.references ++ [cell] }, true)
  else
    (b, false)

end CellBuilder

/-- The completion-tag rewrite performed by `CellBuilder::build_ext` on the
final partial byte: keep the data bits, set the tag bit right after them,
zero the rest of the byte. -/
def completeData (d : List Nat) (bit_len : Nat) : List Nat :=
  let rem := bit_len % 8
  if rem > 0 then
    let last := bit_len / 8
    let tag_mask := 1 <<< (7 - rem)
    let data_mask := 255 ^^^ (tag_mask - 1)
    d.set last ((d.getD last 0 &&& data_mask) ||| tag_mask)
  else
    d

/-- `CellBuilder::build_ext` up to the finalizer call: computes stats as
`1 + Σ child.stats`, the children mask union, the exotic flag and level
mask, both descriptor bytes, and the completion-tagged data. -/
def CellBuilder.build_ext (b : CellBuilder) : Cell :=
  let stats := b.references.foldl (fun s c => addStats s c.stats)
    ⟨b.bit_len, 1⟩
  let children_mask := b.references.foldl (fun m c => m ||| c.level_mask) 0
  let is_exotic := b.level_mask.isSome
  let level_mask := b.level_mask.getD children_mask
  let d1 := compute_d1 level_mask is_exotic b.references.length
  let d2 := compute_d2 b.bit_len
  let data := (completeData b.data b.bit_len).take ((b.bit_len + 7) / 8)
  ⟨data, b.bit_len, d1, d2, b.references, stats⟩

theorem getD_take (l : List Nat) (n i : Nat) (h : i < n) :
    (l.take n).getD i 0 = l.getD i 0 := by
  simp [List.getD_eq_getElem?_getD, List.getElem?_take_of_lt h]

@[simp] theorem completeData_length (d : List Nat) (L : Nat) :
    (completeData d L).length = d.length := by
  by_cases h : L % 8 > 0 <;> simp [completeData, h]

theorem build_ext_data (b : CellBuilder) :
    b.build_ext.data = (completeData b.data b.bit_len).take ((b.bit_len + 7) / 8) := rfl

theorem build_ext_bits (b : CellBuilder) (hlen : b.data.length = 128)
    (hb : b.bit_len ≤ MAX_BIT_LEN) (hrem : b.bit_len % 8 ≠ 0) :
    dataBit b.build_ext.data b.bit_len = true ∧
    (∀ j, b.bit_len < j → j / 8 = b.bit_len / 8 → dataBit b.build_ext.data j = false) ∧
    (∀ i, i < b.bit_len → dataBit b.build_ext.data i = dataBit b.data i) := by
  set L := b.bit_len with hL
  have hlast : L / 8 < 128 := by
    simp only [MAX_BIT_LEN] at hb; omega
  have hbyte : ∀ k, k / 8 ≤ L / 8 → k < 8 * ((L + 7) / 8) := by
    intro k hk; omega
  have hdata : b.build_ext.data = (completeData b.data L).take ((L + 7) / 8) :=
    build_ext_data b
  have hget : ∀ k, k / 8 ≤ L / 8 →
      dataBit b.build_ext.data k = dataBit (completeData b.data L) k := by
    intro k hk
    rw [hdata]
    unfold dataBit
    rw [getD_take]
    omega
  have hcd : ∀ k, dataBit (completeData b.data L) k =
      if k / 8 = L / 8 then
        Nat.testBit ((b.data.getD (L / 8) 0 &&& (255 ^^^ (2 ^ (7 - L % 8) - 1))) |||
          2 ^ (7 - L % 8)) (7 - k % 8)
      else dataBit b.data k := by
    intro k
    unfold completeData dataBit
    rw [if_pos (by omega)]
    by_cases hk : k / 8 = L / 8
    · rw [if_pos hk, hk, getD_set_eq _ _ _ (by rw [hlen]; exact hlast)]
      rw [Nat.shiftLeft_eq, Nat.one_mul]
    · rw [if_neg hk, getD_set_ne _ _ _ _ hk]
  refine ⟨?_, ?_, ?_⟩
  · rw [hget L (le_refl _), hcd, if_pos rfl]
    simp [Nat.testBit_two_pow]
  · intro j hj hjb
    rw [hget j (by omega), hcd, if_pos hjb]
    have hjr : 7 - j % 8 < 7 - L % 8 := by omega
    simp only [Nat.testBit_or, Nat.testBit_and, Nat.testBit_xor,
      Nat.testBit_two_pow, Nat.testBit_two_pow_sub_one]
    have h255 : Nat.testBit 255 (7 - j % 8) = true := by
      have : (255 : Nat) = 2 ^ 8 - 1 := by norm_num
      rw [this, Nat.testBit_two_pow_sub_one]
      simp only [decide_eq_true_eq]; omega
    rw [h255]
    have h1 : decide (7 - j % 8 < 7 - L % 8) = true := by
      simp only [decide_eq_true_eq]; exact hjr
    have h2 : decide (7 - L % 8 = 7 - j % 8) = false := by
      simp only [decide_eq_false_iff_not]; omega
    rw [h1, h2]
    simp
  · intro i hi
    by_cases hib : i / 8 = L / 8
    · rw [hget i (by omega), hcd, if_pos hib]
      have hir : 7 - L % 8 < 7 - i % 8 := by omega
      unfold dataBit
      simp only [Nat.testBit_or, Nat.testBit_and, Nat.testBit_xor,
        Nat.testBit_two_pow, Nat.testBit_two_pow_sub_one]
      have h255 : Nat.testBit 255 (7 - i % 8) = true := by
        have : (255 : Nat) = 2 ^ 8 - 1 := by norm_num
        rw [this, Nat.testBit_two_pow_sub_one]
        simp only [decide_eq_true_eq]; omega
      rw [h255]
      have h1 : decide (7 - i % 8 < 7 - L % 8) = false := by
        simp only [decide_eq_false_iff_not]; omega
      have h2 : decide (7 - L % 8 = 7 - i % 8) = false := by
        simp only [decide_eq_false_iff_not]; omega
      rw [h1, h2, hib]
      simp
    · rw [hget i (by omega), hcd, if_neg hib]

/-- Claim C6: when the consumed builder's bit length is not a multiple of 8,
`build_ext` rewrites the byte containing the last data bit so that the bit
right after the last data bit is 1 and all lower-order bits of that byte are
0, leaving the data bits themselves unchanged; when the bit length is a
multiple of 8 the data bytes are passed to the finalizer unchanged (only
truncated to the occupied length). -/
theorem completion_tag_correct (b : CellBuilder) (hlen : b.data.length = 128)
    (hb : b.bit_len ≤ MAX_BIT_LEN) :
    (b.bit_len % 8 ≠ 0 →
      dataBit b.build_ext.data b.bit_len = true ∧
      (∀ j, b.bit_len < j → j / 8 = b.bit_len / 8 → dataBit b.build_ext.data j = false) ∧
      (∀ i, i < b.bit_len → dataBit b.build_ext.data i = dataBit b.data i)) ∧
    (b.bit_len % 8 = 0 → b.build_ext.data = b.data.take ((b.bit_len + 7) / 8)) := by
  constructor
  · intro hrem
    exact build_ext_bits b hlen hb hrem
  · intro hrem
    rw [build_ext_data]
    unfold completeData
    rw [if_neg (by omega)]

/-- Witness for `completion_tag_correct` at a concrete 3-bit builder. -/
theorem completion_tag_correct_witness :
    (CellBuilder.new.store_bit_true.1.store_bit_zero.1.store_bit_true.1.data.length = 128 ∧
     CellBuilder.new.store_bit_true.1.store_bit_zero.1.store_bit_true.1.bit_len ≤ MAX_BIT_LEN) ∧
    (CellBuilder.new.store_bit_true.1.store_bit_zero.1.store_bit_true.1.bit_len % 8 ≠ 0 →
      dataBit CellBuilder.new.store_bit_true.1.store_bit_zero.1.store_bit_true.1.build_ext.data
        CellBuilder.new.store_bit_true.1.store_bit_zero.1.store_bit_true.1.bit_len = true ∧
      (∀ j, CellBuilder.new.store_bit_true.1.store_bit_zero.1.store_bit_true.1.bit_len < j →
        j / 8 = CellBuilder.new.store_bit_true.1.store_bit_zero.1.store_bit_true.1.bit_len / 8 →
        dataBit CellBuilder.new.store_bit_true.1.store_bit_zero.1.store_bit_true.1.build_ext.data j = false) ∧
      (∀ i, i < CellBuilder.new.store_bit_true.1.store_bit_zero.1.store_bit_true.1.bit_len →
        dataBit CellBuilder.new.store_bit_true.1.store_bit_zero.1.store_bit_true.1.build_ext.data i =
        dataBit CellBuilder.new.store_bit_true.1.store_bit_zero.1.store_bit_true.1.data i)) ∧
    (CellBuilder.new.store_bit_true.1.store_bit_zero.1.store_bit_true.1.bit_len % 8 = 0 →
      CellBuilder.new.store_bit_true.1.store_bit_zero.1.store_bit_true.1.build_ext.data =
      CellBuilder.new.store_bit_true.1.store_bit_zero.1.store_bit_true.1.data.take
        ((CellBuilder.new.store_bit_true.1.store_bit_zero.1.store_bit_true.1.bit_len + 7) / 8)) :=
  ⟨⟨by decide, by decide⟩,
   completion_tag_correct _ (by decide) (by decide)⟩

theorem foldl_addStats (l : List Cell) (s : CellTreeStats)
    (hb : s.bit_count < 2 ^ 64) (hc : s.cell_count < 2 ^ 64) :
    l.foldl (fun s c => addStats s c.stats) s =
      ⟨u64 (s.bit_count + (l.map (fun c => c.stats.bit_count)).sum),
       u64 (s.cell_count + (l.map (fun c => c.stats.cell_count)).sum)⟩ := by
  induction l generalizing s with
  | nil =>
    cases s
    simp only [List.foldl_nil, List.map_nil, List.sum_nil, Nat.add_zero]
    simp only [u64, CellTreeStats.mk.injEq] at *
    exact ⟨(Nat.mod_eq_of_lt hb).symm, (Nat.mod_eq_of_lt hc).symm⟩
  | cons x xs ih =>
    simp only [List.foldl_cons, List.map_cons, List.sum_cons]
    rw [ih (addStats s x.stats) (Nat.mod_lt _ (by positivity)) (Nat.mod_lt _ (by positivity))]
    simp only [addStats, u64, CellTreeStats.mk.injEq]
    constructor <;> (rw [Nat.mod_add_mod]; ring_nf)

/-- Claim C8: the cell produced by `build`/`build_ext` has aggregate stats
equal to `1 + Σ child.stats` in the `u64` arithmetic of the stats fields:
its cell count is 1 plus the sum of the children's cell counts, and its bit
count is the builder's bit length plus the sum of the children's bit
counts. -/
theorem build_ext_stats (b : CellBuilder) (hb : b.bit_len < 2 ^ 64) :
    b.build_ext.stats.cell_count =
      u64 (1 + (b.references.map (fun c => c.stats.cell_count)).sum) ∧
    b.build_ext.stats.bit_count =
      u64 (b.bit_len + (b.references.map (fun c => c.stats.bit_count)).sum) := by
  show (b.references.foldl (fun s c => addStats s c.stats)
      ⟨b.bit_len, 1⟩).cell_count = _ ∧
    (b.references.foldl (fun s c => addStats s c.stats)
      ⟨b.bit_len, 1⟩).bit_count = _
  rw [foldl_addStats _ _ hb (by norm_num)]
  exact ⟨rfl, rfl⟩

/-- Witness for `build_ext_stats` at the empty builder. -/
theorem build_ext_stats_witness :
    CellBuilder.new.build_ext.stats.cell_count =
      u64 (1 + (CellBuilder.new.references.map (fun c => c.stats.cell_count)).sum) ∧
    CellBuilder.new.build_ext.stats.bit_count =
      u64 (CellBuilder.new.bit_len +
        (CellBuilder.new.references.map (fun c => c.stats.bit_count)).sum) :=
  build_ext_stats CellBuilder.new (by norm_num [CellBuilder.new])

theorem lor_le_seven (l : List Cell) (m : Nat) (hm : m ≤ 7)
    (h : ∀ c ∈ l, c.level_mask ≤ 7) :
    l.foldl (fun m c => m ||| c.level_mask) m ≤ 7 := by
  induction l generalizing m with
  | nil => exact hm
  | cons x xs ih =>
    simp only [List.foldl_cons]
    refine ih _ ?_ (fun c hc => h c (List.mem_cons_of_mem _ hc))
    have h1 : m < 2 ^ 3 := by omega
    have h2 : x.level_mask < 2 ^ 3 := by
      have := h x (List.mem_cons_self _ _); omega
    have := Nat.or_lt_two_pow h1 h2
    omega

/-- Claim C10: a built cell is marked exotic in its descriptor exactly when
an explicit level-mask override was set on the builder; without an override
the built cell is non-exotic and its descriptor's level mask is the union
of its children's level masks. -/
theorem build_ext_exotic_level_mask (b : CellBuilder)
    (href : b.references.length ≤ 4)
    (hover : ∀ m, b.level_mask = some m → m ≤ 7)
    (hchild : ∀ c ∈ b.references, c.level_mask ≤ 7) :
    b.build_ext.is_exotic = b.level_mask.isSome ∧
    (b.level_mask = none →
      b.build_ext.level_mask =
        b.references.foldl (fun m c => m ||| c.level_mask) 0) := by
  have hmask : b.level_mask.getD
      (b.references.foldl (fun m c => m ||| c.level_mask) 0) ≤ 7 := by
    cases h : b.level_mask with
    | none =>
      simpa using lor_le_seven b.references 0 (by omega) hchild
    | some m => simpa using hover m h
  have hd1 : b.build_ext.d1 = compute_d1
      (b.level_mask.getD (b.references.foldl (fun m c => m ||| c.level_mask) 0))
      b.level_mask.isSome b.references.length := rfl
  constructor
  · show b.build_ext.d1.testBit 3 = b.level_mask.isSome
    rw [hd1]
    unfold compute_d1
    rw [Nat.testBit_to_div_mod]
    cases b.level_mask.isSome
    · simp only [Bool.false_eq_true, if_false, decide_eq_false_iff_not]
      omega
    · simp only [if_true, decide_eq_true_eq]
      omega
  · intro hnone
    show b.build_ext.d1 >>> 5 = _
    rw [hd1, hnone]
    simp only [Option.getD_none, Option.isSome_none]
    unfold compute_d1
    rw [Nat.shiftRight_eq_div_pow]
    rw [hnone] at hmask
    simp only [Option.getD_none] at hmask
    simp only [Bool.false_eq_true, if_false]
    omega

/-- Witness for `build_ext_exotic_level_mask` at the empty builder. -/
theorem build_ext_exotic_level_mask_witness :
    CellBuilder.new.build_ext.is_exotic = CellBuilder.new.level_mask.isSome ∧
    (CellBuilder.new.level_mask = none →
      CellBuilder.new.build_ext.level_mask =
        CellBuilder.new.references.foldl (fun m c => m ||| c.level_mask) 0) :=
  build_ext_exotic_level_mask CellBuilder.new (by decide)
    (fun m h => by simp [CellBuilder.new] at h)
    (fun c hc => by simp [CellBuilder.new] at hc)

theorem u16_eq (n : Nat) (h : n ≤ 65535) : u16 n = n :=
  Nat.mod_eq_of_lt (by omega)

/-- An append operation succeeded and added exactly `n` bits: it returned
`true`, advanced the bit length by `n`, and kept the reference list. -/
def appendsOk (b : CellBuilder) (n : Nat) (p : CellBuilder × Bool) : Prop :=
  p.2 = true ∧ p.1.bit_len = b.bit_len + n ∧ p.1.references = b.references

theorem impl_store_uint_spec (b : CellBuilder) (hb : b.bit_len ≤ 1023)
    (value bytes bits : Nat) (hbits : bits ≤ 256) :
    (b.bit_len + bits ≤ 1023 →
      appendsOk b bits (b.impl_store_uint value bytes bits)) ∧
    (1023 < b.bit_len + bits → b.impl_store_uint value bytes bits = (b, false)) := by
  constructor
  · intro hle
    have hg : u16 (b.bit_len + bits) ≤ MAX_BIT_LEN := by
      rw [u16_eq _ (by omega)]
      simpa [MAX_BIT_LEN] using hle
    simp only [CellBuilder.impl_store_uint, if_pos hg]
    exact ⟨rfl, u16_eq _ (by omega), rfl⟩
  · intro hgt
    have hg : ¬ (u16 (b.bit_len + bits) ≤ MAX_BIT_LEN) := by
      rw [u16_eq _ (by omega)]
      simp only [MAX_BIT_LEN]
      omega
    simp only [CellBuilder.impl_store_uint, if_neg hg]

/-- Claim C2 (amended with the `u16` no-overflow proviso): for a builder
holding `b ≤ 1023` bits, every bit-append operation whose requested width
keeps `b + new_bits` within `u16` range returns `true` and appends exactly
the requested number of bits iff `b + new_bits ≤ 1023`, and otherwise
returns `false` leaving the builder unchanged; `store_reference` succeeds
iff fewer than 4 references are present, so a 5th reference always fails. -/
theorem builder_capacity (b : CellBuilder) (hb : b.bit_len ≤ 1023) :
    (∀ bits, b.bit_len + bits ≤ 65535 →
      (b.bit_len + bits ≤ 1023 → appendsOk b bits (b.store_zeroes bits)) ∧
      (1023 < b.bit_len + bits → b.store_zeroes bits = (b, false))) ∧
    ((b.bit_len + 1 ≤ 1023 → appendsOk b 1 b.store_bit_zero) ∧
      (1023 < b.bit_len + 1 → b.store_bit_zero = (b, false))) ∧
    ((b.bit_len + 1 ≤ 1023 → appendsOk b 1 b.store_bit_true) ∧
      (1023 < b.bit_len + 1 → b.store_bit_true = (b, false))) ∧
    (∀ value,
      (b.bit_len + 8 ≤ 1023 → appendsOk b 8 (b.store_u8 value)) ∧
      (1023 < b.bit_len + 8 → b.store_u8 value = (b, false))) ∧
    (∀ value,
      (b.bit_len + 16 ≤ 1023 → appendsOk b 16 (b.store_u16 value)) ∧
      (1023 < b.bit_len + 16 → b.store_u16 value = (b, false))) ∧
    (∀ value,
      (b.bit_len + 32 ≤ 1023 → appendsOk b 32 (b.store_u32 value)) ∧
      (1023 < b.bit_len + 32 → b.store_u32 value = (b, false))) ∧
    (∀ value,
      (b.bit_len + 64 ≤ 1023 → appendsOk b 64 (b.store_u64 value)) ∧
      (1023 < b.bit_len + 64 → b.store_u64 value = (b, false))) ∧
    (∀ value,
      (b.bit_len + 128 ≤ 1023 → appendsOk b 128 (b.store_u128 value)) ∧
      (1023 < b.bit_len + 128 → b.store_u128 value = (b, false))) ∧
    (∀ value,
      (b.bit_len + 256 ≤ 1023 → appendsOk b 256 (b.store_u256 value)) ∧
      (1023 < b.bit_len + 256 → b.store_u256 value = (b, false))) ∧
    (∀ value bits, b.bit_len + bits ≤ 65535 →
      (b.bit_len + bits ≤ 1023 → appendsOk b bits (b.store_small_uint value bits)) ∧
      (1023 < b.bit_len + bits → b.store_small_uint value bits = (b, false))) ∧
    (∀ value bits, b.bit_len + bits ≤ 65535 →
      (b.bit_len + bits ≤ 1023 → appendsOk b bits (b.store_uint value bits)) ∧
      (1023 < b.bit_len + bits → b.store_uint value bits = (b, false))) ∧
    (∀ c,
      (b.references.length < 4 →
        b.store_reference c = ({ b with references := b.references ++ [c] }, true)) ∧
      (4 ≤ b.references.length → b.store_reference c = (b, false))) := by
  refine ⟨?_, ?_, ?_, ?_, ?_, ?_, ?_, ?_, ?_, ?_, ?_, ?_⟩
  · intro bits hnw
    constructor
    · intro hle
      have hg : u16 (b.bit_len + bits) ≤ MAX_BIT_LEN := by
        rw [u16_eq _ (by omega)]
        simpa [MAX_BIT_LEN] using hle
      simp only [CellBuilder.store_zeroes, if_pos hg]
      exact ⟨rfl, u16_eq _ (by omega), rfl⟩
    · intro hgt
      have hg : ¬ (u16 (b.bit_len + bits) ≤ MAX_BIT_LEN) := by
        rw [u16_eq _ (by omega)]
        simp only [MAX_BIT_LEN]
        omega
      simp only [CellBuilder.store_zeroes, if_neg hg]
  · constructor
    · intro hle
      have hg : b.bit_len < MAX_BIT_LEN := by simp only [MAX_BIT_LEN]; omega
      simp only [CellBuilder.store_bit_zero, if_pos hg]
      exact ⟨rfl, rfl, rfl⟩
    · intro hgt
      have hg : ¬ (b.bit_len < MAX_BIT_LEN) := by simp only [MAX_BIT_LEN]; omega
      simp only [CellBuilder.store_bit_zero, if_neg hg]
  · constructor
    · intro hle
      have hg : b.bit_len < MAX_BIT_LEN := by simp only [MAX_BIT_LEN]; omega
      simp only [CellBuilder.store_bit_true, if_pos hg]
      exact ⟨rfl, rfl, rfl⟩
    · intro hgt
      have hg : ¬ (b.bit_len < MAX_BIT_LEN) := by simp only [MAX_BIT_LEN]; omega
      simp only [CellBuilder.store_bit_true, if_neg hg]
  · intro value
    constructor
    · intro hle
      have hg : u16 (b.bit_len + 8) ≤ MAX_BIT_LEN := by
        rw [u16_eq _ (by omega)]
        simpa [MAX_BIT_LEN] using hle
      simp only [CellBuilder.store_u8, if_pos hg]
      exact ⟨rfl, u16_eq _ (by omega), rfl⟩
    · intro hgt
      have hg : ¬ (u16 (b.bit_len + 8) ≤ MAX_BIT_LEN) := by
        rw [u16_eq _ (by omega)]
        simp only [MAX_BIT_LEN]
        omega
      simp only [CellBuilder.store_u8, if_neg hg]
  · intro value
    exact impl_store_uint_spec b hb _ 2 16 (by omega)
  · intro value
    exact impl_store_uint_spec b hb _ 4 32 (by omega)
  · intro value
    exact impl_store_uint_spec b hb _ 8 64 (by omega)
  · intro value
    exact impl_store_uint_spec b hb _ 16 128 (by omega)
  · intro value
    constructor
    · intro hle
      have hg : u16 (b.bit_len + 256) ≤ MAX_BIT_LEN := by
        rw [u16_eq _ (by omega)]
        simpa [MAX_BIT_LEN] using hle
      simp only [CellBuilder.store_u256, if_pos hg]
      exact ⟨rfl, u16_eq _ (by omega), rfl⟩
    · intro hgt
      have hg : ¬ (u16 (b.bit_len + 256) ≤ MAX_BIT_LEN) := by
        rw [u16_eq _ (by omega)]
        simp only [MAX_BIT_LEN]
        omega
      simp only [CellBuilder.store_u256, if_neg hg]
  · intro value bits hnw
    constructor
    · intro hle
      by_cases h0 : bits = 0
      · subst h0
        have h : b.store_small_uint value 0 = (b, true) := rfl
        rw [h]
        exact ⟨rfl, by simp, rfl⟩
      · have hg : u16 (b.bit_len + bits) ≤ MAX_BIT_LEN := by
          simp only [u16, MAX_BIT_LEN]
          omega
        simp only [CellBuilder.store_small_uint, if_neg h0, if_pos hg]
        refine ⟨rfl, ?_, rfl⟩
        by_cases h8 : 8 ≤ bits
        · simp only [if_pos h8, u16]
          omega
        · simp only [if_neg h8, u16]
          omega
    · intro hgt
      have h0 : ¬ (bits = 0) := by omega
      have hg : ¬ (u16 (b.bit_len + bits) ≤ MAX_BIT_LEN) := by
        rw [u16_eq _ (by omega)]
        simp only [MAX_BIT_LEN]
        omega
      simp only [CellBuilder.store_small_uint, if_neg h0, if_neg hg]
  · intro value bits hnw
    constructor
    · intro hle
      by_cases h0 : bits = 0
      · subst h0
        have h : b.store_uint value 0 = (b, true) := rfl
        rw [h]
        exact ⟨rfl, by simp, rfl⟩
      · have hg : u16 (b.bit_len + bits) ≤ MAX_BIT_LEN := by
          simp only [u16, MAX_BIT_LEN]
          omega
        simp only [CellBuilder.store_uint, if_neg h0, if_pos hg]
        refine ⟨rfl, ?_, rfl⟩
        by_cases h64 : 64 ≤ bits
        · simp only [if_pos h64, u16]
          omega
        · simp only [if_neg h64, u16]
          omega
    · intro hgt
      have h0 : ¬ (bits = 0) := by omega
      have hg : ¬ (u16 (b.bit_len + bits) ≤ MAX_BIT_LEN) := by
        rw [u16_eq _ (by omega)]
        simp only [MAX_BIT_LEN]
        omega
      simp only [CellBuilder.store_uint, if_neg h0, if_neg hg]
  · intro c
    constructor
    · intro hlt
      have hg : b.references.length < MAX_REF_COUNT := by
        simp only [MAX_REF_COUNT]; omega
      simp only [CellBuilder.store_reference, if_pos hg]
    · intro hge
      have hg : ¬ (b.references.length < MAX_REF_COUNT) := by
        simp only [MAX_REF_COUNT]; omega
      simp only [CellBuilder.store_reference, if_neg hg]

/-- Counterexample to claim C2 as stated: a full builder (1023 bits) and a
`store_zeroes` request of 64513 bits make the `u16` capacity check wrap
around (`1023 + 64513 = 65536 ≡ 0`), so the operation reports success and
corrupts the bit length instead of failing. -/
theorem builder_capacity_cex :
    ((⟨List.replicate 128 0, none, 1023, []⟩ : CellBuilder).store_zeroes 64513).2 = true ∧
    ¬ (1023 + 64513 ≤ 1023) ∧
    ((⟨List.replicate 128 0, none, 1023, []⟩ : CellBuilder).store_zeroes 64513).1.bit_len
      ≠ 1023 + 64513 := by
  refine ⟨?_, by omega, ?_⟩ <;> decide

/-- Witness for `builder_capacity` at the empty builder with a 16-bit store. -/
theorem builder_capacity_witness :
    appendsOk CellBuilder.new 16 (CellBuilder.new.store_u16 43981) ∧
    (CellBuilder.new.store_reference
        ⟨[], 0, 0, 0, [], ⟨0, 1⟩⟩ =
      ({ CellBuilder.new with
          references := CellBuilder.new.references ++ [⟨[], 0, 0, 0, [], ⟨0, 1⟩⟩] }, true)) :=
  ⟨((((((builder_capacity CellBuilder.new (by decide)).2).2).2).2).1 43981).1 (by decide),
   (((builder_capacity CellBuilder.new (by decide)).2.2.2.2.2.2.2.2.2.2.2) ⟨[], 0, 0, 0, [], ⟨0, 1⟩⟩).1
     (by decide)⟩

theorem testBit_u8 (n i : Nat) : (u8 n).testBit i = (decide (i < 8) && n.testBit i) := by
  have h : u8 n = n % 2 ^ 8 := by norm_num [u8]
  rw [h, Nat.testBit_mod_two_pow]

theorem testBit_mod256 (n i : Nat) :
    (n % 256).testBit i = (decide (i < 8) && n.testBit i) := testBit_u8 n i

/-- Bit `t` (counting from the start of byte `q0`) of a buffer after a
big-endian multi-byte copy equals bit `8*bytes - 1 - t` of the copied
value. -/
theorem dataBit_writeBytes_beBytes (d : List Nat) (q0 x bytes t : Nat)
    (ht : t < 8 * bytes) (hlen : q0 + bytes ≤ d.length) :
    dataBit (writeBytes d q0 (beBytes x bytes)) (8 * q0 + t) =
      Nat.testBit x (8 * bytes - 1 - t) := by
  unfold dataBit
  have hdiv : (8 * q0 + t) / 8 = q0 + t / 8 := by omega
  have hmod : (8 * q0 + t) % 8 = t % 8 := by omega
  rw [hdiv, hmod, writeBytes_getD _ _ _ _ (by rw [beBytes_length]; exact hlen)]
  rw [if_pos ⟨by omega, by rw [beBytes_length]; omega⟩]
  rw [show q0 + t / 8 - q0 = t / 8 from by omega]
  rw [beBytes_getD _ _ _ (by omega)]
  rw [testBit_mod256, Nat.testBit_shiftRight]
  rw [show decide (7 - t % 8 < 8) = true from by
    simp only [decide_eq_true_eq]; omega]
  rw [Bool.true_and]
  congr 1
  omega

/-- Bits in bytes outside the written range are untouched by a byte copy. -/
theorem dataBit_writeBytes_outside (d : List Nat) (q0 : Nat) (src : List Nat)
    (i : Nat) (hlen : q0 + src.length ≤ d.length)
    (h : i / 8 < q0 ∨ q0 + src.length ≤ i / 8) :
    dataBit (writeBytes d q0 src) i = dataBit d i := by
  unfold dataBit
  rw [writeBytes_getD _ _ _ _ hlen, if_neg (by omega)]

theorem dataBit_set_other (d : List Nat) (q x i : Nat) (h : i / 8 ≠ q) :
    dataBit (d.set q x) i = dataBit d i := by
  unfold dataBit
  rw [getD_set_ne _ _ _ _ h]

/-- Core bit-accuracy lemma for the `impl_store_uint!` pattern at an
unaligned offset: after the store, the `8*bytes` big-endian bits of the
value occupy positions `[bit_len, bit_len + 8*bytes)`, and the bits below
`bit_len` are unchanged. -/
theorem impl_store_uint_bits (b : CellBuilder) (value bytes : Nat)
    (hbytes : 1 ≤ bytes)
    (hv : value < 2 ^ (8 * bytes))
    (hlen : b.data.length = 128)
    (hr : b.bit_len % 8 ≠ 0)
    (hcap : b.bit_len + 8 * bytes ≤ 1023)
    (htail : ∀ i, b.bit_len ≤ i → dataBit b.data i = false) :
    (b.impl_store_uint value bytes (8 * bytes)).2 = true ∧
    (∀ j, j < 8 * bytes →
      dataBit (b.impl_store_uint value bytes (8 * bytes)).1.data (b.bit_len + j) =
        value.testBit (8 * bytes - 1 - j)) ∧
    (∀ i, i < b.bit_len →
      dataBit (b.impl_store_uint value bytes (8 * bytes)).1.data i =
        dataBit b.data i) := by
  have hg : u16 (b.bit_len + 8 * bytes) ≤ MAX_BIT_LEN := by
    simp only [u16, MAX_BIT_LEN]; omega
  set L := b.bit_len with hLdef
  set q := L / 8 with hq
  set r := L % 8 with hrdef
  have hr1 : 1 ≤ r := by omega
  have hr7 : r ≤ 7 := by omega
  have hL : L = 8 * q + r := by omega
  have hqb : q + 1 + bytes ≤ 128 := by omega
  have hdata : (b.impl_store_uint value bytes (8 * bytes)).1.data =
      writeBytes
        (b.data.set q (b.data.getD q 0 ||| u8 (value >>> (8 * bytes - 8 + r))))
        (q + 1) (beBytes ((value <<< (8 - r)) % 2 ^ (8 * bytes)) bytes) := by
    simp only [CellBuilder.impl_store_uint, if_pos hg, ← hLdef, ← hq, ← hrdef,
      if_neg hr]
  have hres : (b.impl_store_uint value bytes (8 * bytes)).2 = true := by
    simp only [CellBuilder.impl_store_uint, if_pos hg]
  have hsetlen : (b.data.set q
      (b.data.getD q 0 ||| u8 (value >>> (8 * bytes - 8 + r)))).length = 128 := by
    rw [List.length_set, hlen]
  refine ⟨hres, ?_, ?_⟩
  · intro j hj
    rw [hdata]
    by_cases hcase : j < 8 - r
    · -- bit lands in the partial byte q
      have hp : (L + j) / 8 = q := by omega
      rw [dataBit_writeBytes_outside _ _ _ _
        (by rw [beBytes_length, hsetlen]; omega) (Or.inl (by omega))]
      unfold dataBit
      rw [hp, getD_set_eq _ _ _ (by rw [hlen]; omega)]
      have hpos : (L + j) % 8 = r + j := by omega
      rw [hpos, Nat.testBit_or]
      have hold : (b.data.getD q 0).testBit (7 - (r + j)) = false := by
        have := htail (L + j) (by omega)
        unfold dataBit at this
        rw [hp, hpos] at this
        exact this
      rw [hold, Bool.false_or, testBit_u8]
      rw [show decide (7 - (r + j) < 8) = true from by
        simp only [decide_eq_true_eq]; omega]
      rw [Bool.true_and, Nat.testBit_shiftRight]
      congr 1
      omega
    · -- bit lands in one of the shifted bytes q+1 ..
      have ht : j - (8 - r) < 8 * bytes := by omega
      rw [show L + j = 8 * (q + 1) + (j - (8 - r)) from by omega]
      rw [dataBit_writeBytes_beBytes _ _ _ _ _ ht (by rw [hsetlen]; omega)]
      rw [Nat.testBit_mod_two_pow, Nat.testBit_shiftLeft]
      rw [show decide (8 * bytes - 1 - (j - (8 - r)) < 8 * bytes) = true from by
        simp only [decide_eq_true_eq]; omega]
      rw [show decide (8 * bytes - 1 - (j - (8 - r)) ≥ 8 - r) = true from by
        simp only [ge_iff_le, decide_eq_true_eq]; omega]
      simp only [Bool.true_and]
      congr 1
      omega
  · intro i hi
    rw [hdata]
    rw [dataBit_writeBytes_outside _ _ _ _
      (by rw [beBytes_length, hsetlen]; omega) (Or.inl (by omega))]
    by_cases hk : i / 8 = q
    · unfold dataBit
      rw [hk, getD_set_eq _ _ _ (by rw [hlen]; omega)]
      have him : i % 8 < r := by omega
      rw [Nat.testBit_or]
      have hhigh : (u8 (value >>> (8 * bytes - 8 + r))).testBit (7 - i % 8) = false := by
        rw [testBit_u8]
        rw [show decide (7 - i % 8 < 8) = true from by
          simp only [decide_eq_true_eq]; omega]
        rw [Bool.true_and, Nat.testBit_shiftRight]
        exact Nat.testBit_lt_two_pow
          (lt_of_lt_of_le hv (Nat.pow_le_pow_right (by omega) (by omega)))
      rw [hhigh, Bool.or_false]
    · exact dataBit_set_other _ _ _ _ hk

/-- Bit-accuracy of `store_u8` at an unaligned offset. -/
theorem store_u8_bits (b : CellBuilder) (value : Nat)
    (hv : value < 256)
    (hlen : b.data.length = 128)
    (hr : b.bit_len % 8 ≠ 0)
    (hcap : b.bit_len + 8 ≤ 1023)
    (htail : ∀ i, b.bit_len ≤ i → dataBit b.data i = false) :
    (b.store_u8 value).2 = true ∧
    (∀ j, j < 8 →
      dataBit (b.store_u8 value).1.data (b.bit_len + j) = value.testBit (8 - 1 - j)) ∧
    (∀ i, i < b.bit_len →
      dataBit (b.store_u8 value).1.data i = dataBit b.data i) := by
  have hg : u16 (b.bit_len + 8) ≤ MAX_BIT_LEN := by
    simp only [u16, MAX_BIT_LEN]; omega
  have hu8v : u8 value = value := Nat.mod_eq_of_lt hv
  set L := b.bit_len with hLdef
  set q := L / 8 with hq
  set r := L % 8 with hrdef
  have hr1 : 1 ≤ r := by omega
  have hr7 : r ≤ 7 := by omega
  have hL : L = 8 * q + r := by omega
  have hqb : q + 2 ≤ 128 := by omega
  have hdata : (b.store_u8 value).1.data =
      (b.data.set q (b.data.getD q 0 ||| (value >>> r))).set (q + 1)
        (u8 (value <<< (8 - r))) := by
    simp only [CellBuilder.store_u8, hu8v, if_pos hg, ← hLdef, ← hq, ← hrdef,
      if_neg hr]
  have hres : (b.store_u8 value).2 = true := by
    simp only [CellBuilder.store_u8, if_pos hg]
  refine ⟨hres, ?_, ?_⟩
  · intro j hj
    rw [hdata]
    by_cases hcase : j < 8 - r
    · have hp : (L + j) / 8 = q := by omega
      rw [dataBit_set_other _ _ _ _ (by omega)]
      unfold dataBit
      rw [hp, getD_set_eq _ _ _ (by rw [hlen]; omega)]
      have hpos : (L + j) % 8 = r + j := by omega
      rw [hpos, Nat.testBit_or]
      have hold : (b.data.getD q 0).testBit (7 - (r + j)) = false := by
        have := htail (L + j) (by omega)
        unfold dataBit at this
        rw [hp, hpos] at this
        exact this
      rw [hold, Bool.false_or, Nat.testBit_shiftRight]
      congr 1
      omega
    · have hp : (L + j) / 8 = q + 1 := by omega
      unfold dataBit
      rw [hp, getD_set_eq _ _ _ (by simp only [List.length_set]; omega)]
      rw [testBit_u8]
      rw [show decide (7 - (L + j) % 8 < 8) = true from by
        simp only [decide_eq_true_eq]; omega]
      rw [Bool.true_and, Nat.testBit_shiftLeft]
      rw [show decide (7 - (L + j) % 8 ≥ 8 - r) = true from by
        simp only [ge_iff_le, decide_eq_true_eq]; omega]
      rw [Bool.true_and]
      congr 1
      omega
  · intro i hi
    rw [hdata]
    rw [dataBit_set_other _ _ _ _ (by omega)]
    by_cases hk : i / 8 = q
    · unfold dataBit
      rw [hk, getD_set_eq _ _ _ (by rw [hlen]; omega)]
      have him : i % 8 < r := by omega
      rw [Nat.testBit_or]
      have hhigh : (value >>> r).testBit (7 - i % 8) = false := by
        rw [Nat.testBit_shiftRight]
        refine Nat.testBit_lt_two_pow (lt_of_lt_of_le hv ?_)
        calc (256 : Nat) = 2 ^ 8 := by norm_num
        _ ≤ 2 ^ (r + (7 - i % 8)) := Nat.pow_le_pow_right (by omega) (by omega)
      rw [hhigh, Bool.or_false]
    · exact dataBit_set_other _ _ _ _ hk

/-- Bit-accuracy of `store_u256` at an unaligned offset: the `hi`/`lo`
`u128` split lands the 256 big-endian bits of the value contiguously. -/
theorem store_u256_bits (b : CellBuilder) (value : Nat)
    (hv : value < 2 ^ 256)
    (hlen : b.data.length = 128)
    (hr : b.bit_len % 8 ≠ 0)
    (hcap : b.bit_len + 256 ≤ 1023)
    (htail : ∀ i, b.bit_len ≤ i → dataBit b.data i = false) :
    (b.store_u256 value).2 = true ∧
    (∀ j, j < 256 →
      dataBit (b.store_u256 value).1.data (b.bit_len + j) =
        value.testBit (256 - 1 - j)) ∧
    (∀ i, i < b.bit_len →
      dataBit (b.store_u256 value).1.data i = dataBit b.data i) := by
  have hg : u16 (b.bit_len + 256) ≤ MAX_BIT_LEN := by
    simp only [u16, MAX_BIT_LEN]; omega
  have hvv : value % 2 ^ 256 = value := Nat.mod_eq_of_lt hv
  set L := b.bit_len with hLdef
  set q := L / 8 with hq
  set r := L % 8 with hrdef
  have hr1 : 1 ≤ r := by omega
  have hr7 : r ≤ 7 := by omega
  have hL : L = 8 * q + r := by omega
  have hqb : q + 33 ≤ 128 := by omega
  have hhi128 : value >>> 128 < 2 ^ 128 := by
    rw [Nat.shiftRight_eq_div_pow]
    exact Nat.div_lt_of_lt_mul (by rw [← Nat.pow_add]; exact hv)
  set d0 := b.data.set q
    (b.data.getD q 0 ||| u8 ((value >>> 128) >>> (128 - (8 - r)))) with hd0
  set d1 := writeBytes d0 (q + 1)
    (beBytes ((((value >>> 128) <<< (8 - r)) % 2 ^ 128) |||
      ((value % 2 ^ 128) >>> (128 - (8 - r)))) 16) with hd1
  have hd0len : d0.length = 128 := by rw [hd0, List.length_set, hlen]
  have hd1len : d1.length = 128 := by rw [hd1, writeBytes_length, hd0len]
  have hdata : (b.store_u256 value).1.data =
      writeBytes d1 (q + 17) (beBytes (((value % 2 ^ 128) <<< (8 - r)) % 2 ^ 128) 16) := by
    simp only [CellBuilder.store_u256, hvv, if_pos hg, ← hLdef, ← hq, ← hrdef,
      if_neg hr, hd1, hd0]
  have hres : (b.store_u256 value).2 = true := by
    simp only [CellBuilder.store_u256, if_pos hg]
  refine ⟨hres, ?_, ?_⟩
  · intro j hj
    rw [hdata]
    by_cases hcase : j < 8 - r
    · -- partial byte q
      have hp : (L + j) / 8 = q := by omega
      rw [dataBit_writeBytes_outside _ _ _ _
        (by rw [beBytes_length, hd1len]; omega) (Or.inl (by omega))]
      rw [hd1, dataBit_writeBytes_outside _ _ _ _
        (by rw [beBytes_length, hd0len]; omega) (Or.inl (by omega))]
      rw [hd0]
      unfold dataBit
      rw [hp, getD_set_eq _ _ _ (by rw [hlen]; omega)]
      have hpos : (L + j) % 8 = r + j := by omega
      rw [hpos, Nat.testBit_or]
      have hold : (b.data.getD q 0).testBit (7 - (r + j)) = false := by
        have := htail (L + j) (by omega)
        unfold dataBit at this
        rw [hp, hpos] at this
        exact this
      rw [hold, Bool.false_or, testBit_u8]
      rw [show decide (7 - (r + j) < 8) = true from by
        simp only [decide_eq_true_eq]; omega]
      rw [Bool.true_and, ← Nat.shiftRight_add, Nat.testBit_shiftRight,
        show 128 + (128 - (8 - r)) + (7 - (r + j)) = 256 - 1 - j from by omega]
    · by_cases hcase2 : j < 8 - r + 128
      · -- high 16 shifted bytes
        have ht : j - (8 - r) < 8 * 16 := by omega
        rw [show L + j = 8 * (q + 1) + (j - (8 - r)) from by omega]
        rw [dataBit_writeBytes_outside _ _ _ _
          (by rw [beBytes_length, hd1len]; omega) (Or.inl (by omega))]
        rw [hd1, dataBit_writeBytes_beBytes _ _ _ _ _ ht (by rw [hd0len]; omega)]
        rw [Nat.testBit_or]
        by_cases hsub : j - (8 - r) ≤ 127 - (8 - r)
        · have hA : ((((value >>> 128) <<< (8 - r)) % 2 ^ 128)).testBit
              (8 * 16 - 1 - (j - (8 - r))) = value.testBit (256 - 1 - j) := by
            rw [Nat.testBit_mod_two_pow,
              show decide (8 * 16 - 1 - (j - (8 - r)) < 128) = true from by
                simp only [decide_eq_true_eq]; omega,
              Bool.true_and, Nat.testBit_shiftLeft,
              show decide (8 * 16 - 1 - (j - (8 - r)) ≥ 8 - r) = true from by
                simp only [ge_iff_le, decide_eq_true_eq]; omega,
              Bool.true_and, Nat.testBit_shiftRight,
              show 128 + (8 * 16 - 1 - (j - (8 - r)) - (8 - r)) = 256 - 1 - j from by
                omega]
          have hB : ((value % 2 ^ 128) >>> (128 - (8 - r))).testBit
              (8 * 16 - 1 - (j - (8 - r))) = false := by
            rw [Nat.testBit_shiftRight, Nat.testBit_mod_two_pow,
              show decide (128 - (8 - r) + (8 * 16 - 1 - (j - (8 - r))) < 128) = false from by
                simp only [decide_eq_false_iff_not]; omega,
              Bool.false_and]
          rw [hA, hB, Bool.or_false]
        · have hA : ((((value >>> 128) <<< (8 - r)) % 2 ^ 128)).testBit
              (8 * 16 - 1 - (j - (8 - r))) = false := by
            rw [Nat.testBit_mod_two_pow, Nat.testBit_shiftLeft,
              show decide (8 * 16 - 1 - (j - (8 - r)) ≥ 8 - r) = false from by
                simp only [ge_iff_le, decide_eq_false_iff_not]; omega,
              Bool.false_and, Bool.and_false]
          have hB : ((value % 2 ^ 128) >>> (128 - (8 - r))).testBit
              (8 * 16 - 1 - (j - (8 - r))) = value.testBit (256 - 1 - j) := by
            rw [Nat.testBit_shiftRight, Nat.testBit_mod_two_pow,
              show decide (128 - (8 - r) + (8 * 16 - 1 - (j - (8 - r))) < 128) = true from by
                simp only [decide_eq_true_eq]; omega,
              Bool.true_and,
              show 128 - (8 - r) + (8 * 16 - 1 - (j - (8 - r))) = 256 - 1 - j from by
                omega]
          rw [hA, hB, Bool.false_or]
      · -- low 16 shifted bytes
        have ht : j - (8 - r) - 128 < 8 * 16 := by omega
        rw [show L + j = 8 * (q + 17) + (j - (8 - r) - 128) from by omega]
        rw [dataBit_writeBytes_beBytes _ _ _ _ _ ht (by rw [hd1len]; omega)]
        rw [Nat.testBit_mod_two_pow,
          show decide (8 * 16 - 1 - (j - (8 - r) - 128) < 128) = true from by
            simp only [decide_eq_true_eq]; omega,
          Bool.true_and, Nat.testBit_shiftLeft,
          show decide (8 * 16 - 1 - (j - (8 - r) - 128) ≥ 8 - r) = true from by
            simp only [ge_iff_le, decide_eq_true_eq]; omega,
          Bool.true_and, Nat.testBit_mod_two_pow,
          show decide (8 * 16 - 1 - (j - (8 - r) - 128) - (8 - r) < 128) = true from by
            simp only [decide_eq_true_eq]; omega,
          Bool.true_and,
          show 8 * 16 - 1 - (j - (8 - r) - 128) - (8 - r) = 256 - 1 - j from by
            omega]
  · intro i hi2
    rw [hdata]
    rw [dataBit_writeBytes_outside _ _ _ _
      (by rw [beBytes_length, hd1len]; omega) (Or.inl (by omega))]
    rw [hd1, dataBit_writeBytes_outside _ _ _ _
      (by rw [beBytes_length, hd0len]; omega) (Or.inl (by omega))]
    rw [hd0]
    by_cases hk : i / 8 = q
    · unfold dataBit
      rw [hk, getD_set_eq _ _ _ (by rw [hlen]; omega)]
      have him : i % 8 < r := by omega
      rw [Nat.testBit_or]
      have hhigh : (u8 ((value >>> 128) >>> (128 - (8 - r)))).testBit (7 - i % 8) = false := by
        rw [testBit_u8]
        rw [show decide (7 - i % 8 < 8) = true from by
          simp only [decide_eq_true_eq]; omega]
        rw [Bool.true_and, Nat.testBit_shiftRight]
        exact Nat.testBit_lt_two_pow
          (lt_of_lt_of_le hhi128 (Nat.pow_le_pow_right (by omega) (by omega)))
      rw [hhigh, Bool.or_false]
    · exact dataBit_set_other _ _ _ _ hk

/-- Dispatcher over the fixed-width store operations, by width. -/
def CellBuilder.store_fixed_width (b : CellBuilder) (w value : Nat) : CellBuilder × Bool :=
  if w = 8 then b.store_u8 value
  else if w = 16 then b.store_u16 value
  else if w = 32 then b.store_u32 value
  else if w = 64 then b.store_u64 value
  else if w = 128 then b.store_u128 value
  else if w = 256 then b.store_u256 value
  else (b, false)

theorem dataBit_replicate_zero (i : Nat) :
    dataBit (List.replicate 128 0) i = false := by
  unfold dataBit
  have h : (List.replicate 128 (0 : Nat)).getD (i / 8) 0 = 0 := by
    rcases lt_or_ge (i / 8) 128 with h | h
    · rw [List.getD_eq_getElem?_getD, List.getElem?_replicate]
      rw [if_pos h]
      rfl
    · rw [List.getD_eq_getElem?_getD, List.getElem?_eq_none (by simpa using h)]
      rfl
  rw [h]
  simp

/-- Claim C3: for every builder at an unaligned bit offset `b` (not a
multiple of 8) with `b + w ≤ 1023` and a clean tail, each fixed-width store
of width `w ∈ {8,16,32,64,128,256}` succeeds and ORs/copies the value so
that data bits `[b, b+w)` equal the `w` big-endian bits of the value while
bits `[0, b)` are unchanged. -/
theorem unaligned_store_bits (b : CellBuilder) (w value : Nat)
    (hw : w = 8 ∨ w = 16 ∨ w = 32 ∨ w = 64 ∨ w = 128 ∨ w = 256)
    (hv : value < 2 ^ w)
    (hlen : b.data.length = 128)
    (hr : b.bit_len % 8 ≠ 0)
    (hcap : b.bit_len + w ≤ 1023)
    (htail : ∀ i, b.bit_len ≤ i → dataBit b.data i = false) :
    (b.store_fixed_width w value).2 = true ∧
    (∀ j, j < w →
      dataBit (b.store_fixed_width w value).1.data (b.bit_len + j) =
        value.testBit (w - 1 - j)) ∧
    (∀ i, i < b.bit_len →
      dataBit (b.store_fixed_width w value).1.data i = dataBit b.data i) := by
  rcases hw with rfl | rfl | rfl | rfl | rfl | rfl
  · have hfw : b.store_fixed_width 8 value = b.store_u8 value := rfl
    rw [hfw]
    exact store_u8_bits b value hv hlen hr hcap htail
  · have hfw : b.store_fixed_width 16 value = b.impl_store_uint value 2 (8 * 2) := by
      show b.impl_store_uint (value % 2 ^ 16) 2 16 = _
      rw [Nat.mod_eq_of_lt hv]
    rw [hfw]
    exact impl_store_uint_bits b value 2 (by norm_num) hv hlen hr hcap htail
  · have hfw : b.store_fixed_width 32 value = b.impl_store_uint value 4 (8 * 4) := by
      show b.impl_store_uint (value % 2 ^ 32) 4 32 = _
      rw [Nat.mod_eq_of_lt hv]
    rw [hfw]
    exact impl_store_uint_bits b value 4 (by norm_num) hv hlen hr hcap htail
  · have hfw : b.store_fixed_width 64 value = b.impl_store_uint value 8 (8 * 8) := by
      show b.impl_store_uint (value % 2 ^ 64) 8 64 = _
      rw [Nat.mod_eq_of_lt hv]
    rw [hfw]
    exact impl_store_uint_bits b value 8 (by norm_num) hv hlen hr hcap htail
  · have hfw : b.store_fixed_width 128 value = b.impl_store_uint value 16 (8 * 16) := by
      show b.impl_store_uint (value % 2 ^ 128) 16 128 = _
      rw [Nat.mod_eq_of_lt hv]
    rw [hfw]
    exact impl_store_uint_bits b value 16 (by norm_num) hv hlen hr hcap htail
  · have hfw : b.store_fixed_width 256 value = b.store_u256 value := rfl
    rw [hfw]
    exact store_u256_bits b value hv hlen hr hcap htail

/-- Witness for `unaligned_store_bits`: a 16-bit store into a builder with
3 bits already used. -/
theorem unaligned_store_bits_witness :
    ((⟨List.replicate 128 0, none, 3, []⟩ : CellBuilder).store_fixed_width 16 43981).2 = true ∧
    (∀ j, j < 16 →
      dataBit ((⟨List.replicate 128 0, none, 3, []⟩ : CellBuilder).store_fixed_width
          16 43981).1.data ((⟨List.replicate 128 0, none, 3, []⟩ : CellBuilder).bit_len + j) =
        (43981 : Nat).testBit (16 - 1 - j)) ∧
    (∀ i, i < (⟨List.replicate 128 0, none, 3, []⟩ : CellBuilder).bit_len →
      dataBit ((⟨List.replicate 128 0, none, 3, []⟩ : CellBuilder).store_fixed_width
          16 43981).1.data i =
        dataBit (⟨List.replicate 128 0, none, 3, []⟩ : CellBuilder).data i) :=
  unaligned_store_bits ⟨List.replicate 128 0, none, 3, []⟩ 16 43981
    (Or.inr (Or.inl rfl)) (by norm_num) (by simp) (by decide) (by decide)
    (fun i _ => dataBit_replicate_zero i)

/-!
Dictionary (trie) traversal, `dict/ops/find.rs`.

Modelled from the spec: the label codec (`read_label`, in the dictionary
module that is not among the provided sources) is abstracted by storing the
decoded label on each node: a dictionary cell is a `DTree` node carrying
its edge label, the data remaining after the label (the value payload of a
leaf), and its child references.  A decoded label may be longer than the
remaining key bits (a malformed encoding); the traversal code checks for
that, as `find.rs` does with `checked_sub`.
-/

/-- Error kind relevant to the traversals (`Error::CellUnderflow`). -/
inductive DictError where
  | cellUnderflow
  deriving Repr, DecidableEq

/-- A dictionary cell as seen through `read_label`: decoded edge label,
remaining data after the label, child references.  `Branch` is a `Bool`
(`false` = the 0-branch, `true` = the 1-branch); `reversed` is negation. -/
inductive DTree where
  | node (label : List Bool) (tail : List Bool) (refs : List DTree)

def DTree.label : DTree → List Bool | .node l _ _ => l
def DTree.tail : DTree → List Bool | .node _ t _ => t
def DTree.refs : DTree → List DTree | .node _ _ r => r

/-- `reference_count`. -/
def DTree.reference_count (t : DTree) : Nat := t.refs.length

/-- `reference(branch as u8)`. -/
def DTree.reference (t : DTree) (b : Bool) : Option DTree :=
  t.refs.get? (cond b 1 0)

theorem DTree.reference_sizeOf (t : DTree) (b : Bool) (c : DTree)
    (h : t.reference b = some c) : sizeOf c < sizeOf t := by
  unfold DTree.reference at h
  have hmem : c ∈ t.refs := List.get?_mem h
  have h1 : sizeOf c < sizeOf t.refs := List.sizeOf_lt_of_mem hmem
  cases t with
  | node l tl r =>
    simp only [DTree.refs] at h1
    simp only [DTree.node.sizeOf_spec]
    omega

/-- Longest common prefix of two bit strings
(`longest_common_data_prefix`). -/
def lcp : List Bool → List Bool → List Bool
  | a :: as_, b :: bs => if a = b then a :: lcp as_ bs else []
  | _, _ => []

theorem lcp_le_left (a b : List Bool) : (lcp a b).length ≤ a.length := by
  induction a generalizing b with
  | nil => cases b <;> simp [lcp]
  | cons x xs ih =>
    cases b with
    | nil => simp [lcp]
    | cons y ys =>
      by_cases h : x = y <;> simp [lcp, h]
      exact ih ys

theorem lcp_le_right (a b : List Bool) : (lcp a b).length ≤ b.length := by
  induction a generalizing b with
  | nil => cases b <;> simp [lcp]
  | cons x xs ih =>
    cases b with
    | nil => simp [lcp]
    | cons y ys =>
      by_cases h : x = y <;> simp [lcp, h]
      exact ih ys

/-- Direction of the rewound search (`DictBound`). -/
inductive DictBound where
  | min
  | max
  deriving Repr, DecidableEq

/-- `DictBound::into_branch`: the branch taken at every fork when walking
toward this bound. -/
def DictBound.into_branch : DictBound → Bool
  | .min => false
  | .max => true

/-- An entry of the backtracking stack (`Segment`): the fork cell, the
branch taken out of it, and the key bits remaining after that branch. -/
structure Segment where
  data : DTree
  next_branch : Bool
  key_bit_len : Nat

/-- Outcome of the forward walk (`enum Leaf` in `dict_find_owned`). -/
inductive Leaf where
  | value (range : List Bool)
  | divergence (next_branch : Bool)

/-- The forward walk of `dict_find_owned` (its first `loop`): reads the
label, compares it with the remaining key, and either finds the value,
records the divergence branch (reversed when `signed` and the stack is
empty and the common prefix is empty), or descends, pushing a `Segment`.
The stack grows at the head (most recent first). -/
def fwd_walk (data : DTree) (key : List Bool) (signed : Bool)
    (stack : List Segment) :
    Except DictError (Leaf × List Bool × DTree × List Segment) :=
  let pfx := data.label
  let l := lcp key pfx
  if l.length = key.length then
    .ok (.value data.tail, key, data, stack)
  else if l.length < pfx.length then
    let b := key.getD l.length false
    let b := if signed ∧ stack.isEmpty ∧ l.length = 0 then !b else b
    .ok (.divergence b, key, data, stack)
  else if data.reference_count ≠ 2 then
    .error .cellUnderflow
  else
    match key.drop l.length with
    | [] => .error .cellUnderflow
    | bit :: key' =>
      match h : data.reference bit with
      | none => .error .cellUnderflow
      | some child =>
        fwd_walk child key' signed (⟨data, bit, key'.length⟩ :: stack)
termination_by sizeOf data
decreasing_by exact DTree.reference_sizeOf data bit child h

/-- The rewind loop of `dict_find_owned`: pops segments until the first
fork whose taken branch differs from the bound direction, with the branch
comparison reversed for the segment whose consumed prefix has length 1
when `signed`.  Returns the fork, its remaining bits, the flipped branch
and the length of the key prefix to keep. -/
def rewind (stack : List Segment) (key_bit_len : Nat) (rev_direction : Bool)
    (signed : Bool) : Option (DTree × Nat × Bool × Nat) :=
  match stack with
  | [] => none
  | ⟨data, next_branch, remaining_bits⟩ :: rest =>
    let pfx_len := key_bit_len - remaining_bits
    let signed_root := signed ∧ pfx_len = 1
    if signed_root ∧ next_branch ≠ rev_direction then
      some (data, remaining_bits, rev_direction, pfx_len - 1)
    else if ¬ signed_root ∧ next_branch = rev_direction then
      some (data, remaining_bits, !rev_direction, pfx_len - 1)
    else
      rewind rest key_bit_len rev_direction signed

/-- The final descent of `dict_find_owned` (its second `loop`): append each
label to the result key and keep taking the `rev_direction` branch until
the remaining bits are exhausted.  Returns the result key, the value
range, the last parent link and the final cell. -/
def final_walk (data : DTree) (remaining_bits : Nat) (rev_direction : Bool)
    (result_key : List Bool) (prev : Option (DTree × Bool)) :
    Except DictError (List Bool × List Bool × Option (DTree × Bool) × DTree) :=
  let pfx := data.label
  let result_key := result_key ++ pfx
  if pfx.length > remaining_bits then
    .error .cellUnderflow
  else if remaining_bits = pfx.length then
    .ok (result_key, data.tail, prev, data)
  else if data.refs.length < 2 then
    .error .cellUnderflow
  else
    let remaining := remaining_bits - pfx.length - 1
    let result_key := result_key ++ [rev_direction]
    match h : data.reference rev_direction with
    | none => .error .cellUnderflow
    | some child =>
      final_walk child remaining rev_direction result_key (some (data, rev_direction))
termination_by sizeOf data
decreasing_by exact DTree.reference_sizeOf data rev_direction child h

/-- The tail of `dict_find_owned` after the inclusive-exact check: rewind
to the divergent branch (the `'fork` block), descend into the untaken
sibling, run the final bound walk and resolve the found cell. -/
def find_owned_rest (root : DTree) (key_bit_len : Nat) (key : List Bool)
    (towards : DictBound) (signed : Bool) (leaf : Leaf) (key' : List Bool)
    (data : DTree) (stack : List Segment) (prev : Option (DTree × Bool)) :
    Except DictError (Option (List Bool × DTree × List Bool)) :=
  let fork : Option (DTree × Nat × Option Bool × Nat) :=
    match leaf with
    | .divergence nb =>
      if nb = !towards.into_branch then
        some (data, key'.length, none, key_bit_len - key'.length)
      else
        match rewind stack key_bit_len (!towards.into_branch) signed with
        | some (d, rb, fb, pl) => some (d, rb, some fb, pl)
        | none => none
    | .value _ =>
      match rewind stack key_bit_len (!towards.into_branch) signed with
      | some (d, rb, fb, pl) => some (d, rb, some fb, pl)
      | none => none
  match fork with
  | none => .ok none
  | some (data, remaining_bits, first_branch, pfx_len) =>
    let result_key := key.take pfx_len
    match first_branch with
    | some branch =>
      match data.reference branch with
      | none => .error .cellUnderflow
      | some child =>
        match final_walk child remaining_bits (!towards.into_branch)
            (result_key ++ [branch]) (some (data, branch)) with
        | .error e => .error e
        | .ok (rk, range, prevF, _) =>
          match prevF with
          | some (p, nb) =>
            match p.reference nb with
            | some cell => .ok (some (rk, cell, range))
            | none => .error .cellUnderflow
          | none => .ok (some (rk, root, range))
    | none =>
      match final_walk data remaining_bits (!towards.into_branch)
          result_key prev with
      | .error e => .error e
      | .ok (rk, range, prevF, _) =>
        match prevF with
        | some (p, nb) =>
          match p.reference nb with
          | some cell => .ok (some (rk, cell, range))
          | none => .error .cellUnderflow
        | none => .ok (some (rk, root, range))

/-- `dict_find_owned`: nearest-bound lookup with an input key.  The result
is the found key bits, the found cell and its value range. -/
def dict_find_owned (dict : Option DTree) (key_bit_len : Nat) (key : List Bool)
    (towards : DictBound) (inclusive signed : Bool) :
    Except DictError (Option (List Bool × DTree × List Bool)) :=
  if key.length ≠ key_bit_len then .error .cellUnderflow
  else
    match dict with
    | none => .ok none
    | some root =>
      match fwd_walk root key signed [] with
      | .error e => .error e
      | .ok (leaf, key', data, stack) =>
        -- `prev` mirrors the most recent stack entry of the forward walk
        let prev : Option (DTree × Bool) :=
          match stack with
          | seg :: _ => some (seg.data, seg.next_branch)
          | [] => none
        if inclusive then
          match leaf with
          | .value range =>
            match stack with
            | seg :: _ =>
              match seg.data.reference seg.next_branch with
              | some cell => .ok (some (key, cell, range))
              | none => .error .cellUnderflow
            | [] => .ok (some (key, root, range))
          | .divergence _ =>
            find_owned_rest root key_bit_len key towards signed leaf key' data stack prev
        else
          find_owned_rest root key_bit_len key towards signed leaf key' data stack prev

/-- Modelled from the spec: `DictBound::update_direction` (in the
dictionary module that is not among the provided sources).  The first fork
fixes the direction: the bound's branch, reversed when `signed` and the
fork sits at the root bit (empty label); later forks reuse the bound's
plain branch. -/
def DictBound.update_direction (bound : DictBound) (pfx : List Bool)
    (signed : Bool) (direction : Option Bool) : Bool × Option Bool :=
  match direction with
  | some d => (d, some d)
  | none =>
    let b := bound.into_branch
    ((if signed ∧ pfx.isEmpty then !b else b), some b)

/-- The walk of `dict_find_bound`: descend toward the bound, appending
labels and branch bits to the key. -/
def bound_walk (data : DTree) (key_bit_len : Nat) (bound : DictBound)
    (signed : Bool) (direction : Option Bool) (key : List Bool) :
    Except DictError (List Bool × DTree) :=
  let pfx := data.label
  let key := key ++ pfx
  if pfx.length > key_bit_len then
    .error .cellUnderflow
  else if key_bit_len = pfx.length then
    .ok (key, data)
  else if data.refs.length < 2 then
    .error .cellUnderflow
  else
    let remaining := key_bit_len - pfx.length - 1
    let nb := (bound.update_direction pfx signed direction).1
    let direction := (bound.update_direction pfx signed direction).2
    match h : data.reference nb with
    | none => .error .cellUnderflow
    | some child => bound_walk child remaining bound signed direction (key ++ [nb])
termination_by sizeOf data
decreasing_by exact DTree.reference_sizeOf data nb child h

/-- `dict_find_bound`: walks unconditionally toward one bound.  Returns
the key bits and the found cell (value = its `tail`). -/
def dict_find_bound (dict : Option DTree) (key_bit_len : Nat)
    (bound : DictBound) (signed : Bool) :
    Except DictError (Option (List Bool × DTree)) :=
  match dict with
  | none => .ok none
  | some root =>
    match bound_walk root key_bit_len bound signed none [] with
    | .error e => .error e
    | .ok (key, data) => .ok (some (key, data))

/-- The walk of `dict_find_bound_owned`: as `bound_walk` but tracking the
parent link used to rebuild the owned value slice. -/
def bound_walk_owned (data : DTree) (key_bit_len : Nat) (bound : DictBound)
    (signed : Bool) (direction : Option Bool) (key : List Bool)
    (prev : Option (DTree × Bool)) :
    Except DictError (List Bool × DTree × Option (DTree × Bool)) :=
  let pfx := data.label
  let key := key ++ pfx
  if pfx.length > key_bit_len then
    .error .cellUnderflow
  else if key_bit_len = pfx.length then
    .ok (key, data, prev)
  else if data.refs.length < 2 then
    .error .cellUnderflow
  else
    let remaining := key_bit_len - pfx.length - 1
    let nb := (bound.update_direction pfx signed direction).1
    let direction := (bound.update_direction pfx signed direction).2
    match h : data.reference nb with
    | none => .error .cellUnderflow
    | some child =>
      bound_walk_owned child remaining bound signed direction (key ++ [nb])
        (some (data, nb))
termination_by sizeOf data
decreasing_by exact DTree.reference_sizeOf data nb child h

/-- `dict_find_bound_owned`: as `dict_find_bound` but resolving the found
cell through its parent link. -/
def dict_find_bound_owned (dict : Option DTree) (key_bit_len : Nat)
    (bound : DictBound) (signed : Bool) :
    Except DictError (Option (List Bool × DTree × List Bool)) :=
  match dict with
  | none => .ok none
  | some root =>
    match bound_walk_owned root key_bit_len bound signed none [] none with
    | .error e => .error e
    | .ok (key, data, prev) =>
      match prev with
      | some (p, nb) =>
        match p.reference nb with
        | some cell => .ok (some (key, cell, data.tail))
        | none => .error .cellUnderflow
      | none => .ok (some (key, root, data.tail))

/-- Nodes reachable by the forward walk of `dict_find_owned`: each step
fully matches the node's label, leaves key bits over, finds exactly 2
references and descends along the next key bit. -/
inductive FwdReach (signed : Bool) (root : DTree) (key0 : List Bool) :
    DTree → List Bool → List Segment → Prop
  | refl : FwdReach signed root key0 root key0 []
  | step (d : DTree) (k : List Bool) (s : List Segment) (bit : Bool)
      (k' : List Bool) (child : DTree) :
      FwdReach signed root key0 d k s →
      (lcp k d.label).length ≠ k.length →
      ¬ ((lcp k d.label).length < d.label.length) →
      d.reference_count = 2 →
      k.drop (lcp k d.label).length = bit :: k' →
      d.reference bit = some child →
      FwdReach signed root key0 child k' (⟨d, bit, k'.length⟩ :: s)

theorem fwd_reach_walk_eq (signed : Bool) (root : DTree) (key0 : List Bool)
    (d : DTree) (k : List Bool) (s : List Segment)
    (h : FwdReach signed root key0 d k s) :
    fwd_walk root key0 signed [] = fwd_walk d k signed s := by
  induction h with
  | refl => rfl
  | step d k s bit k' child hreach hne hfull href hdrop hchild ih =>
    rw [ih]
    rw [fwd_walk]
    rw [if_neg hne, if_neg hfull, if_neg (by simp [href]), hdrop]
    dsimp only
    split
    · next heq =>
      rw [hchild] at heq
      exact Option.noConfusion heq
    · next c heq =>
      have h3 : child = c := by
        have h4 := hchild.symm.trans heq
        injection h4
      rw [h3]

/-- Nodes reachable by the descent of `dict_find_bound` /
`dict_find_bound_owned`, together with the remaining bit budget and the
memoized direction. -/
inductive BoundReach (bound : DictBound) (signed : Bool) (root : DTree)
    (n0 : Nat) : DTree → Nat → Option Bool → Prop
  | refl : BoundReach bound signed root n0 root n0 none
  | step (d : DTree) (m : Nat) (dir : Option Bool) (child : DTree) :
      BoundReach bound signed root n0 d m dir →
      ¬ (d.label.length > m) →
      m ≠ d.label.length →
      ¬ (d.refs.length < 2) →
      d.reference ((bound.update_direction d.label signed dir).1) = some child →
      BoundReach bound signed root n0 child (m - d.label.length - 1)
        ((bound.update_direction d.label signed dir).2)

theorem bound_reach_walk_eq (bound : DictBound) (signed : Bool) (root : DTree)
    (n0 : Nat) (d : DTree) (m : Nat) (dir : Option Bool)
    (h : BoundReach bound signed root n0 d m dir) :
    ∃ k, bound_walk root n0 bound signed none [] = bound_walk d m bound signed dir k := by
  induction h with
  | refl => exact ⟨[], rfl⟩
  | step d m dir child hreach hgt hne hrefs hchild ih =>
    obtain ⟨k, hk⟩ := ih
    refine ⟨k ++ d.label ++ [(bound.update_direction d.label signed dir).1], ?_⟩
    rw [hk]
    rw [bound_walk]
    rw [if_neg hgt, if_neg hne, if_neg hrefs]
    dsimp only
    split
    · next heq =>
      rw [hchild] at heq
      exact Option.noConfusion heq
    · next c heq =>
      have h3 : child = c := by
        have h4 := hchild.symm.trans heq
        injection h4
      rw [h3]

theorem bound_reach_walk_owned_eq (bound : DictBound) (signed : Bool)
    (root : DTree) (n0 : Nat) (d : DTree) (m : Nat) (dir : Option Bool)
    (h : BoundReach bound signed root n0 d m dir) :
    ∃ k p, bound_walk_owned root n0 bound signed none [] none =
      bound_walk_owned d m bound signed dir k p := by
  induction h with
  | refl => exact ⟨[], none, rfl⟩
  | step d m dir child hreach hgt hne hrefs hchild ih =>
    obtain ⟨k, p, hk⟩ := ih
    refine ⟨k ++ d.label ++ [(bound.update_direction d.label signed dir).1],
      some (d, (bound.update_direction d.label signed dir).1), ?_⟩
    rw [hk]
    rw [bound_walk_owned]
    rw [if_neg hgt, if_neg hne, if_neg hrefs]
    dsimp only
    split
    · next heq =>
      rw [hchild] at heq
      exact Option.noConfusion heq
    · next c heq =>
      have h3 : child = c := by
        have h4 := hchild.symm.trans heq
        injection h4
      rw [h3]

theorem bound_walk_bad_err (d : DTree) (m : Nat) (bound : DictBound)
    (signed : Bool) (dir : Option Bool) (k : List Bool)
    (hbad : d.label.length > m ∨ (d.label.length ≠ m ∧ d.refs.length < 2)) :
    bound_walk d m bound signed dir k = .error .cellUnderflow := by
  rw [bound_walk]
  by_cases hgt : d.label.length > m
  · rw [if_pos hgt]
  · rcases hbad with h | ⟨hne, hrefs⟩
    · exact absurd h hgt
    · rw [if_neg hgt, if_neg (by omega), if_pos hrefs]

theorem bound_walk_owned_bad_err (d : DTree) (m : Nat) (bound : DictBound)
    (signed : Bool) (dir : Option Bool) (k : List Bool)
    (p : Option (DTree × Bool))
    (hbad : d.label.length > m ∨ (d.label.length ≠ m ∧ d.refs.length < 2)) :
    bound_walk_owned d m bound signed dir k p = .error .cellUnderflow := by
  rw [bound_walk_owned]
  by_cases hgt : d.label.length > m
  · rw [if_pos hgt]
  · rcases hbad with h | ⟨hne, hrefs⟩
    · exact absurd h hgt
    · rw [if_neg hgt, if_neg (by omega), if_pos hrefs]

/-- Claim C5 (amended): during the forward walk of `dict_find_owned`, an
edge whose label fully matches without consuming all remaining key bits
and whose reference count differs from 2 forces `Err(CellUnderflow)`; and
`dict_find_bound`/`dict_find_bound_owned` return `Err(CellUnderflow)`
whenever any visited edge reads a label longer than the remaining key bits
or a shorter label with fewer than 2 references.  (An edge at which the
key diverges from the label is not checked by `dict_find_owned`'s forward
walk; see the counterexample.) -/
theorem find_malformed_underflow (root : DTree) (key0 : List Bool)
    (towards : DictBound) (inclusive signed : Bool) (n0 : Nat)
    (bound : DictBound) :
    (∀ d k s, FwdReach signed root key0 d k s →
      (lcp k d.label).length ≠ k.length →
      ¬ ((lcp k d.label).length < d.label.length) →
      d.reference_count ≠ 2 →
      dict_find_owned (some root) key0.length key0 towards inclusive signed =
        .error .cellUnderflow) ∧
    (∀ d m dir, BoundReach bound signed root n0 d m dir →
      (d.label.length > m ∨ (d.label.length ≠ m ∧ d.refs.length < 2)) →
      dict_find_bound (some root) n0 bound signed = .error .cellUnderflow ∧
      dict_find_bound_owned (some root) n0 bound signed = .error .cellUnderflow) := by
  constructor
  · intro d k s hreach hne hfull hbad
    have hwalk : fwd_walk root key0 signed [] = .error .cellUnderflow := by
      rw [fwd_reach_walk_eq signed root key0 d k s hreach]
      rw [fwd_walk]
      rw [if_neg hne, if_neg hfull, if_pos (by simp [hbad])]
    unfold dict_find_owned
    rw [if_neg (by simp)]
    dsimp only
    rw [hwalk]
  · intro d m dir hreach hbad
    constructor
    · obtain ⟨k, hk⟩ := bound_reach_walk_eq bound signed root n0 d m dir hreach
      unfold dict_find_bound
      dsimp only
      rw [hk, bound_walk_bad_err d m bound signed dir k hbad]
    · obtain ⟨k, p, hk⟩ :=
        bound_reach_walk_owned_eq bound signed root n0 d m dir hreach
      unfold dict_find_bound_owned
      dsimp only
      rw [hk, bound_walk_owned_bad_err d m bound signed dir k p hbad]

/-- Counterexample to claim C5 as stated: a trie whose root edge has a
1-bit label for 2-bit keys and no references (reference count 0 ≠ 2).
Searching for key `00` towards the lower bound diverges at the root, the
rewind stack is empty, and `dict_find_owned` returns `Ok(None)` instead of
`Err(CellUnderflow)` — the malformed edge is skipped. -/
theorem dict_find_owned_skips_malformed :
    dict_find_owned (some (DTree.node [true] [] [])) 2 [false, false]
      DictBound.min false false = .ok none ∧
    (DTree.node [true] [] []).label.length < 2 ∧
    (DTree.node [true] [] []).reference_count ≠ 2 := by
  refine ⟨?_, by decide, by decide⟩
  unfold dict_find_owned
  rw [if_neg (by decide)]
  dsimp only
  rw [show fwd_walk (DTree.node [true] [] []) [false, false] false [] =
    .ok (.divergence false, [false, false], DTree.node [true] [] [], []) from by
      rw [fwd_walk]
      rfl]
  rfl

/-- Witness for `find_malformed_underflow` on two concrete malformed
tries. -/
theorem find_malformed_underflow_witness :
    dict_find_owned (some (DTree.node [] [] [])) 2 [false, false]
      DictBound.min false false = .error .cellUnderflow ∧
    dict_find_bound (some (DTree.node [false] [] [])) 2 DictBound.max false =
      .error .cellUnderflow ∧
    dict_find_bound_owned (some (DTree.node [false] [] [])) 2 DictBound.max false =
      .error .cellUnderflow := by
  refine ⟨?_, ?_, ?_⟩
  · exact (find_malformed_underflow (DTree.node [] [] []) [false, false]
      DictBound.min false false 2 DictBound.max).1 _ _ _ FwdReach.refl
      (by decide) (by decide) (by decide)
  · exact ((find_malformed_underflow (DTree.node [false] [] []) [false, false]
      DictBound.min false false 2 DictBound.max).2 _ _ _ BoundReach.refl
      (Or.inr ⟨by decide, by decide⟩)).1
  · exact ((find_malformed_underflow (DTree.node [false] [] []) [false, false]
      DictBound.min false false 2 DictBound.max).2 _ _ _ BoundReach.refl
      (Or.inr ⟨by decide, by decide⟩)).2

/-!
Specification variant of `dict_find_owned` for claim C4: the branch
interpretation is reversed exactly at the absolute key bit position 0 (the
root bit), instead of the code's stack-emptiness / prefix-length tests.
Proving the two variants equal shows that the code's reversal conditions
fire exactly at the root bit and nowhere else.
-/

/-- As `fwd_walk`, with the divergence reversal keyed on the absolute bit
position of the divergence (`consumed + lcp = 0`). -/
def fwd_walk_pos (N : Nat) (data : DTree) (key : List Bool) (signed : Bool)
    (stack : List Segment) :
    Except DictError (Leaf × List Bool × DTree × List Segment) :=
  let pfx := data.label
  let l := lcp key pfx
  if l.length = key.length then
    .ok (.value data.tail, key, data, stack)
  else if l.length < pfx.length then
    let b := key.getD l.length false
    let b := if signed ∧ N - key.length + l.length = 0 then !b else b
    .ok (.divergence b, key, data, stack)
  else if data.reference_count ≠ 2 then
    .error .cellUnderflow
  else
    match key.drop l.length with
    | [] => .error .cellUnderflow
    | bit :: key' =>
      match h : data.reference bit with
      | none => .error .cellUnderflow
      | some child =>
        fwd_walk_pos N child key' signed (⟨data, bit, key'.length⟩ :: stack)
termination_by sizeOf data
decreasing_by exact DTree.reference_sizeOf data bit child h

/-- As `rewind`, with the root-segment reversal keyed on the absolute bit
position of the segment's branch bit (`prefix_len - 1 = 0`). -/
def rewind_pos (stack : List Segment) (key_bit_len : Nat)
    (rev_direction : Bool) (signed : Bool) : Option (DTree × Nat × Bool × Nat) :=
  match stack with
  | [] => none
  | ⟨data, next_branch, remaining_bits⟩ :: rest =>
    let pfx_len := key_bit_len - remaining_bits
    let signed_root := signed ∧ pfx_len - 1 = 0
    if signed_root ∧ next_branch ≠ rev_direction then
      some (data, remaining_bits, rev_direction, pfx_len - 1)
    else if ¬ signed_root ∧ next_branch = rev_direction then
      some (data, remaining_bits, !rev_direction, pfx_len - 1)
    else
      rewind_pos rest key_bit_len rev_direction signed

/-- As `find_owned_rest`, using `rewind_pos`. -/
def find_owned_rest_pos (root : DTree) (key_bit_len : Nat) (key : List Bool)
    (towards : DictBound) (signed : Bool) (leaf : Leaf) (key' : List Bool)
    (data : DTree) (stack : List Segment) (prev : Option (DTree × Bool)) :
    Except DictError (Option (List Bool × DTree × List Bool)) :=
  let fork : Option (DTree × Nat × Option Bool × Nat) :=
    match leaf with
    | .divergence nb =>
      if nb = !towards.into_branch then
        some (data, key'.length, none, key_bit_len - key'.length)
      else
        match rewind_pos stack key_bit_len (!towards.into_branch) signed with
        | some (d, rb, fb, pl) => some (d, rb, some fb, pl)
        | none => none
    | .value _ =>
      match rewind_pos stack key_bit_len (!towards.into_branch) signed with
      | some (d, rb, fb, pl) => some (d, rb, some fb, pl)
      | none => none
  match fork with
  | none => .ok none
  | some (data, remaining_bits, first_branch, pfx_len) =>
    let result_key := key.take pfx_len
    match first_branch with
    | some branch =>
      match data.reference branch with
      | none => .error .cellUnderflow
      | some child =>
        match final_walk child remaining_bits (!towards.into_branch)
            (result_key ++ [branch]) (some (data, branch)) with
        | .error e => .error e
        | .ok (rk, range, prevF, _) =>
          match prevF with
          | some (p, nb) =>
            match p.reference nb with
            | some cell => .ok (some (rk, cell, range))
            | none => .error .cellUnderflow
          | none => .ok (some (rk, root, range))
    | none =>
      match final_walk data remaining_bits (!towards.into_branch)
          result_key prev with
      | .error e => .error e
      | .ok (rk, range, prevF, _) =>
        match prevF with
        | some (p, nb) =>
          match p.reference nb with
          | some cell => .ok (some (rk, cell, range))
          | none => .error .cellUnderflow
        | none => .ok (some (rk, root, range))

/-- As `dict_find_owned`, with every `signed` reversal keyed on absolute
bit position 0. -/
def dict_find_owned_pos (dict : Option DTree) (key_bit_len : Nat)
    (key : List Bool) (towards : DictBound) (inclusive signed : Bool) :
    Except DictError (Option (List Bool × DTree × List Bool)) :=
  if key.length ≠ key_bit_len then .error .cellUnderflow
  else
    match dict with
    | none => .ok none
    | some root =>
      match fwd_walk_pos key_bit_len root key signed [] with
      | .error e => .error e
      | .ok (leaf, key', data, stack) =>
        let prev : Option (DTree × Bool) :=
          match stack with
          | seg :: _ => some (seg.data, seg.next_branch)
          | [] => none
        if inclusive then
          match leaf with
          | .value range =>
            match stack with
            | seg :: _ =>
              match seg.data.reference seg.next_branch with
              | some cell => .ok (some (key, cell, range))
              | none => .error .cellUnderflow
            | [] => .ok (some (key, root, range))
          | .divergence _ =>
            find_owned_rest_pos root key_bit_len key towards signed leaf key' data stack prev
        else
          find_owned_rest_pos root key_bit_len key towards signed leaf key' data stack prev

theorem fwd_walk_pos_eq (N : Nat) (signed : Bool) :
    ∀ n (d : DTree), sizeOf d = n → ∀ (key : List Bool) (stack : List Segment),
    (stack = [] → key.length = N) →
    (∀ seg rest, stack = seg :: rest → key.length < N) →
    fwd_walk_pos N d key signed stack = fwd_walk d key signed stack := by
  intro n
  induction n using Nat.strong_induction_on with
  | _ n ih =>
    intro d hd key stack h1 h2
    rw [fwd_walk_pos, fwd_walk]
    by_cases hv : (lcp key d.label).length = key.length
    · rw [if_pos hv, if_pos hv]
    · rw [if_neg hv, if_neg hv]
      by_cases hdv : (lcp key d.label).length < d.label.length
      · rw [if_pos hdv, if_pos hdv]
        have hiff : (signed = true ∧ N - key.length + (lcp key d.label).length = 0) ↔
            (signed = true ∧ stack.isEmpty = true ∧ (lcp key d.label).length = 0) := by
          constructor
          · rintro ⟨hs, hp⟩
            have hl0 : (lcp key d.label).length = 0 := by omega
            have hNk : N ≤ key.length := by omega
            cases stack with
            | nil => exact ⟨hs, rfl, hl0⟩
            | cons seg rest =>
              have := h2 seg rest rfl
              omega
          · rintro ⟨hs, he, hl⟩
            have hst : stack = [] := by
              cases stack with
              | nil => rfl
              | cons seg rest => simp [List.isEmpty] at he
            have := h1 hst
            exact ⟨hs, by omega⟩
        dsimp only
        exact congrArg (fun x => Except.ok (Leaf.divergence x, key, d, stack))
          (if_congr hiff rfl rfl)
      · rw [if_neg hdv, if_neg hdv]
        by_cases hrc : d.reference_count ≠ 2
        · rw [if_pos hrc, if_pos hrc]
        · rw [if_neg hrc, if_neg hrc]
          have hkle : key.length ≤ N := by
            cases stack with
            | nil => exact le_of_eq (h1 rfl)
            | cons seg rest => exact le_of_lt (h2 seg rest rfl)
          cases hdrop : key.drop (lcp key d.label).length with
          | nil => rfl
          | cons bit key' =>
            dsimp only
            have hlen' : key'.length < key.length := by
              have := congrArg List.length hdrop
              simp only [List.length_drop, List.length_cons] at this
              have hle := lcp_le_left key d.label
              omega
            split
            · next heq => rfl
            · next c heq =>
              exact ih (sizeOf c)
                (by rw [← hd]; exact DTree.reference_sizeOf d bit c heq)
                c rfl key' (⟨d, bit, key'.length⟩ :: stack)
                (fun h => List.noConfusion h)
                (fun seg rest h => by omega)

theorem rewind_pos_eq (stack : List Segment) (kbl : Nat) (rev : Bool)
    (signed : Bool) (hseg : ∀ seg ∈ stack, seg.key_bit_len < kbl) :
    rewind_pos stack kbl rev signed = rewind stack kbl rev signed := by
  induction stack with
  | nil => rfl
  | cons seg rest ih =>
    obtain ⟨data, nb, rb⟩ := seg
    have hlt : rb < kbl := hseg ⟨data, nb, rb⟩ (List.mem_cons_self _ _)
    have hmem : ∀ s ∈ rest, s.key_bit_len < kbl :=
      fun s hs => hseg s (List.mem_cons_of_mem _ hs)
    have hsr : (signed = true ∧ kbl - rb - 1 = 0) = (signed = true ∧ kbl - rb = 1) := by
      apply propext
      constructor <;> rintro ⟨a, c⟩ <;> exact ⟨a, by omega⟩
    rw [rewind_pos, rewind]
    by_cases ha : signed = true ∧ kbl - rb = 1
    · by_cases hb : nb = rev
      · rw [if_neg (fun h => h.2 hb), if_neg (fun h => h.1 ⟨ha.1, by omega⟩),
          if_neg (fun h => h.2 hb), if_neg (fun h => h.1 ha)]
        exact ih hmem
      · rw [if_pos ⟨⟨ha.1, by omega⟩, hb⟩, if_pos ⟨ha, hb⟩]
    · by_cases hb : nb = rev
      · rw [if_neg (fun h => ha (hsr ▸ h.1)), if_pos ⟨fun h => ha (hsr ▸ h), hb⟩,
          if_neg (fun h => ha h.1), if_pos ⟨fun h => ha h, hb⟩]
      · rw [if_neg (fun h => ha (hsr ▸ h.1)), if_neg (fun h => hb h.2),
          if_neg (fun h => ha h.1), if_neg (fun h => hb h.2)]
        exact ih hmem

theorem find_owned_rest_pos_eq (root : DTree) (kbl : Nat) (key : List Bool)
    (towards : DictBound) (signed : Bool) (leaf : Leaf) (key' : List Bool)
    (data : DTree) (stack : List Segment) (prev : Option (DTree × Bool))
    (hseg : ∀ seg ∈ stack, seg.key_bit_len < kbl) :
    find_owned_rest_pos root kbl key towards signed leaf key' data stack prev =
      find_owned_rest root kbl key towards signed leaf key' data stack prev := by
  unfold find_owned_rest_pos find_owned_rest
  rw [rewind_pos_eq stack kbl (!towards.into_branch) signed hseg]

theorem fwd_walk_stack_bound (signed : Bool) (N : Nat) :
    ∀ n (d : DTree), sizeOf d = n → ∀ (key : List Bool) (stack : List Segment)
    (res : Leaf × List Bool × DTree × List Segment),
    key.length ≤ N →
    (∀ seg ∈ stack, seg.key_bit_len < N) →
    fwd_walk d key signed stack = .ok res →
    ∀ seg ∈ res.2.2.2, seg.key_bit_len < N := by
  intro n
  induction n using Nat.strong_induction_on with
  | _ n ih =>
    intro d hd key stack res hk hstack hok
    rw [fwd_walk] at hok
    by_cases hv : (lcp key d.label).length = key.length
    · rw [if_pos hv] at hok
      cases hok
      exact hstack
    · rw [if_neg hv] at hok
      by_cases hdv : (lcp key d.label).length < d.label.length
      · rw [if_pos hdv] at hok
        cases hok
        exact hstack
      · rw [if_neg hdv] at hok
        by_cases hrc : d.reference_count ≠ 2
        · rw [if_pos hrc] at hok
          cases hok
        · rw [if_neg hrc] at hok
          cases hdrop : key.drop (lcp key d.label).length with
          | nil =>
            rw [hdrop] at hok
            exact Except.noConfusion hok
          | cons bit key' =>
            rw [hdrop] at hok
            dsimp only at hok
            have hlen' : key'.length < key.length := by
              have := congrArg List.length hdrop
              simp only [List.length_drop, List.length_cons] at this
              have hle := lcp_le_left key d.label
              omega
            revert hok
            split
            · intro hok
              cases hok
            · next c heq =>
              intro hok
              refine ih (sizeOf c)
                (by rw [← hd]; exact DTree.reference_sizeOf d bit c heq)
                c rfl key' (⟨d, bit, key'.length⟩ :: stack) res (by omega)
                ?_ hok
              intro seg hs
              rcases List.mem_cons.mp hs with rfl | hs
              · simpa using by omega
              · exact hstack seg hs

/-- Claim C4: `dict_find_owned` equals the specification variant in which
the `signed` branch reversal is applied exactly at absolute key bit
position 0 (the root bit) and nowhere else: the code's forward-walk
condition (empty stack and empty common prefix) and rewind condition
(consumed prefix length exactly 1) both characterize the root bit. -/
theorem dict_find_owned_signed_root_bit (dict : Option DTree)
    (key_bit_len : Nat) (key : List Bool) (towards : DictBound)
    (inclusive signed : Bool) :
    dict_find_owned_pos dict key_bit_len key towards inclusive signed =
      dict_find_owned dict key_bit_len key towards inclusive signed := by
  unfold dict_find_owned_pos dict_find_owned
  by_cases hne : key.length ≠ key_bit_len
  · rw [if_pos hne, if_pos hne]
  · rw [if_neg hne, if_neg hne]
    cases dict with
    | none => rfl
    | some root =>
      dsimp only
      have hN : key.length = key_bit_len := by omega
      rw [fwd_walk_pos_eq key_bit_len signed (sizeOf root) root rfl key []
        (fun _ => hN) (fun seg rest h => List.noConfusion h)]
      cases hres : fwd_walk root key signed [] with
      | error e => rfl
      | ok res =>
        obtain ⟨leaf, key', data, stack⟩ := res
        have hseg : ∀ seg ∈ stack, seg.key_bit_len < key_bit_len ∨ stack = [] := by
          intro seg hs
          exact Or.inl (fwd_walk_stack_bound signed key_bit_len (sizeOf root)
            root rfl key [] (leaf, key', data, stack) (le_of_eq hN)
            (fun s h => absurd h (List.not_mem_nil s)) hres seg hs)
        have hseg' : ∀ seg ∈ stack, seg.key_bit_len < key_bit_len := by
          intro seg hs
          rcases hseg seg hs with h | h
          · exact h
          · rw [h] at hs
            exact absurd hs (List.not_mem_nil seg)
        dsimp only
        cases inclusive with
        | true =>
          cases leaf with
          | value range => rfl
          | divergence nb =>
            simp only [if_true]
            exact find_owned_rest_pos_eq root key_bit_len key towards signed
              (.divergence nb) key' data stack _ hseg'
        | false =>
          simp only [Bool.false_eq_true, if_false]
          exact find_owned_rest_pos_eq root key_bit_len key towards signed
            leaf key' data stack _ hseg'

/-!
Augmented dictionary (`dict/aug.rs`).

`AugDict` keeps a label-compressed binary trie whose nodes are leaves
(`extra`, `value`) or forks (two children plus the combined `extra`), and a
cached root extra.  `aug_dict_insert` / `aug_dict_remove_owned` are in the
dictionary ops module that is not among the provided sources, so the trie
and its mutations are modelled from the spec (§4.5/§4.6): a persistent
update that rebuilds the path from the change point to the root, invoking
the comparator once per rebuilt fork, and a removal that collapses the
sibling fork, merging labels.  `update_root_extra` (which is in `src/`)
reads the root node's stored extra, or the default when the dictionary is
empty.
-/

/-- `SetMode`: unconditional set, replace-only, add-only. -/
inductive SetMode where
  | set
  | replace
  | add
  deriving Repr, DecidableEq

/-- Modelled from the spec: an augmented-dictionary node (`HashmapAug`):
an edge label followed by either a leaf (`extra`, `value`) or a fork of
two children with their combined `extra`. -/
inductive AugTree (A V : Type) where
  | leaf (label : List Bool) (extra : A) (value : V)
  | fork (label : List Bool) (left right : AugTree A V) (extra : A)

namespace AugTree

variable {A V : Type}

/-- The extra stored on the node (what `update_root_extra` reads). -/
def extra : AugTree A V → A
  | .leaf _ e _ => e
  | .fork _ _ _ e => e

/-- Replace the edge label (label merging during removal). -/
def relabel : AugTree A V → List Bool → AugTree A V
  | .leaf _ e v, nl => .leaf nl e v
  | .fork _ l r e, nl => .fork nl l r e

/-- Extras of all leaves, in ascending key order. -/
def leafExtras : AugTree A V → List A
  | .leaf _ e _ => [e]
  | .fork _ l r _ => leafExtras l ++ leafExtras r

/-- The edge label of a node. -/
def label : AugTree A V → List Bool
  | .leaf l _ _ => l
  | .fork l _ _ _ => l

/-- Case split on the remaining key bits: an exhausted key inside an edge
yields `none`, otherwise the head bit picks the branch. -/
def keyStep {B : Type} (f : Bool → List Bool → Option B) : List Bool → Option B
  | [] => none
  | b :: rest => f b rest

/-- Modelled from the spec: at a divergence point the edge is replaced by
a fork of the trimmed old subtree and a fresh leaf, ordered by the next
key bit, with the fork extra combined from the two children. -/
def splitEdge (combine : A → A → A) (l : List Bool) (oldSub : AugTree A V)
    (key : List Bool) (extra : A) (value : V) : AugTree A V :=
  let newLeaf : AugTree A V := .leaf (key.drop (l.length + 1)) extra value
  cond (key.getD l.length false)
    (.fork l oldSub newLeaf (combine oldSub.extra newLeaf.extra))
    (.fork l newLeaf oldSub (combine newLeaf.extra oldSub.extra))

/-- Modelled from the spec: `aug_dict_insert` on a non-empty subtree.
Walks the labels; at a leaf with the same key it overwrites (`Set`,
`Replace`); at a divergence it splits the edge into a fork of the old
subtree and a new leaf (`Set`, `Add`); at a fork it descends along the
next key bit and recombines the fork's extra.  Returns `none` when the
mode forbids the change. -/
def insertAug (combine : A → A → A) (t : AugTree A V) (key : List Bool)
    (extra : A) (value : V) (mode : SetMode) : Option (AugTree A V) :=
  match t with
  | .leaf lbl e v =>
    if lbl = key then
      if mode = .add then none else some (.leaf lbl extra value)
    else if mode = .replace then none
    else
      some (splitEdge combine (lcp key lbl)
        (.leaf (lbl.drop ((lcp key lbl).length + 1)) e v) key extra value)
  | .fork lbl left right e =>
    if (lcp key lbl).length = lbl.length then
      keyStep (fun b krest =>
        cond b
          ((insertAug combine right krest extra value mode).map
            (fun child' => .fork lbl left child' (combine left.extra child'.extra)))
          ((insertAug combine left krest extra value mode).map
            (fun child' => .fork lbl child' right (combine child'.extra right.extra))))
        (key.drop lbl.length)
    else if mode = .replace then none
    else
      some (splitEdge combine (lcp key lbl)
        (.fork (lbl.drop ((lcp key lbl).length + 1)) left right e) key extra value)
termination_by sizeOf t
decreasing_by all_goals (simp; try omega)

/-- Rebuilding after removal in the right child: a vanished child makes
the left sibling absorb the fork (label, branch bit `false`, own label
concatenated); a surviving child rebuilds the fork with a recombined
extra. -/
def remFromRight (combine : A → A → A) (lbl : List Bool)
    (left : AugTree A V) :
    Option (AugTree A V) × A × V → Option (AugTree A V) × A × V
  | (none, re, rv) =>
    (some (left.relabel (lbl ++ [false] ++ left.label)), re, rv)
  | (some child', re, rv) =>
    (some (.fork lbl left child' (combine left.extra child'.extra)), re, rv)

/-- Rebuilding after removal in the left child (branch bit `true`). -/
def remFromLeft (combine : A → A → A) (lbl : List Bool)
    (right : AugTree A V) :
    Option (AugTree A V) × A × V → Option (AugTree A V) × A × V
  | (none, re, rv) =>
    (some (right.relabel (lbl ++ [true] ++ right.label)), re, rv)
  | (some child', re, rv) =>
    (some (.fork lbl child' right (combine child'.extra right.extra)), re, rv)

/-- Modelled from the spec: `aug_dict_remove_owned` on a non-empty
subtree.  Deletes the leaf with the given key and collapses its sibling
fork, merging the traversed label, the sibling branch bit and the
sibling's own label; rebuilt forks recombine their extra.  Returns the new
subtree (or `none` when the last leaf vanished) and the removed pair. -/
def removeAug (combine : A → A → A) (t : AugTree A V) (key : List Bool) :
    Option (Option (AugTree A V) × A × V) :=
  match t with
  | .leaf lbl e v =>
    if lbl = key then some (none, e, v) else none
  | .fork lbl left right _ =>
    if (lcp key lbl).length = lbl.length then
      keyStep (fun b krest =>
        cond b
          ((removeAug combine right krest).map (remFromRight combine lbl left))
          ((removeAug combine left krest).map (remFromLeft combine lbl right)))
        (key.drop lbl.length)
    else
      none
termination_by sizeOf t
decreasing_by all_goals (simp; try omega)

end AugTree

/-- The augmented dictionary: optional root plus the cached root extra
(`AugDict { dict, extra }`). -/
structure AugDict (A V : Type) where
  root : Option (AugTree A V)
  extra : A

/-- `AugDict::update_root_extra`: the cached extra is re-read from the
root node's stored extra, or reset to the default for an empty
dictionary. -/
def update_root_extra {A V : Type} (dflt : A) (root : Option (AugTree A V)) : A :=
  match root with
  | some t => t.extra
  | none => dflt

/-- `AugDict::insert_impl` (covering `set`/`replace`/`add` via the mode):
runs the modelled `aug_dict_insert` and, when it changed the tree,
refreshes the cached root extra via `update_root_extra`. -/
def AugDict.insert_impl {A V : Type} (combine : A → A → A) (dflt : A)
    (d : AugDict A V) (key : List Bool) (extra : A) (value : V)
    (mode : SetMode) : AugDict A V × Bool :=
  let root' : Option (Option (AugTree A V)) :=
    match d.root with
    | none =>
      match mode with
      | .replace => none
      | _ => some (some (.leaf key extra value))
    | some t =>
      match AugTree.insertAug combine t key extra value mode with
      | none => none
      | some t' => some (some t')
  match root' with
  | none => (d, false)
  | some r => ({ root := r, extra := update_root_extra dflt r }, true)

/-- `AugDict::remove_impl`: runs the modelled `aug_dict_remove_owned` and,
when a value was removed, refreshes the cached root extra. -/
def AugDict.remove_impl {A V : Type} (combine : A → A → A) (dflt : A)
    (d : AugDict A V) (key : List Bool) : AugDict A V × Option (A × V) :=
  match d.root with
  | none => (d, none)
  | some t =>
    match AugTree.removeAug combine t key with
    | none => (d, none)
    | some (r, e, v) => ({ root := r, extra := update_root_extra dflt r }, some (e, v))

/-- Node-local well-formedness: every fork stores the combination of its
children's extras. -/
def AugWf {A V : Type} (combine : A → A → A) : AugTree A V → Prop
  | .leaf _ _ _ => True
  | .fork _ l r e => e = combine l.extra r.extra ∧ AugWf combine l ∧ AugWf combine r

/-- Fold of the combinator over a list of leaf extras (the default is
returned only for the empty dictionary). -/
def foldExtras {A : Type} (combine : A → A → A) (dflt : A) : List A → A
  | [] => dflt
  | h :: t => t.foldl combine h

theorem leafExtras_ne_nil {A V : Type} (t : AugTree A V) : t.leafExtras ≠ [] := by
  induction t with
  | leaf lbl e v => simp [AugTree.leafExtras]
  | fork lbl l r e ihl ihr => simp [AugTree.leafExtras, ihl]

theorem foldl_assoc_combine {A : Type} (combine : A → A → A)
    (hassoc : ∀ x y z, combine (combine x y) z = combine x (combine y z)) :
    ∀ (l : List A) (a b : A),
      l.foldl combine (combine a b) = combine a (l.foldl combine b) := by
  intro l
  induction l with
  | nil => intro a b; rfl
  | cons x xs ih =>
    intro a b
    simp only [List.foldl_cons]
    rw [hassoc, ih]

theorem foldExtras_append {A : Type} (combine : A → A → A) (dflt : A)
    (hassoc : ∀ x y z, combine (combine x y) z = combine x (combine y z))
    (xs ys : List A) (hx : xs ≠ []) (hy : ys ≠ []) :
    foldExtras combine dflt (xs ++ ys) =
      combine (foldExtras combine dflt xs) (foldExtras combine dflt ys) := by
  cases xs with
  | nil => exact absurd rfl hx
  | cons x xt =>
    cases ys with
    | nil => exact absurd rfl hy
    | cons y yt =>
      simp only [foldExtras, List.cons_append, List.foldl_append]
      rw [List.foldl_cons, ← foldl_assoc_combine combine hassoc yt _ y]

/-- A well-formed subtree's stored extra is the fold of its leaf extras. -/
theorem augwf_extra_eq_fold {A V : Type} (combine : A → A → A) (dflt : A)
    (hassoc : ∀ x y z, combine (combine x y) z = combine x (combine y z))
    (t : AugTree A V) (hwf : AugWf combine t) :
    t.extra = foldExtras combine dflt t.leafExtras := by
  induction t with
  | leaf lbl e v => rfl
  | fork lbl l r e ihl ihr =>
    obtain ⟨he, hl, hr⟩ := hwf
    simp only [AugTree.extra, AugTree.leafExtras]
    rw [foldExtras_append combine dflt hassoc _ _ (leafExtras_ne_nil l)
      (leafExtras_ne_nil r), ← ihl hl, ← ihr hr, he]

theorem augwf_relabel {A V : Type} (combine : A → A → A) (t : AugTree A V)
    (nl : List Bool) (hwf : AugWf combine t) : AugWf combine (t.relabel nl) := by
  cases t with
  | leaf lbl e v => trivial
  | fork lbl l r e => exact hwf

theorem leafExtras_relabel {A V : Type} (t : AugTree A V) (nl : List Bool) :
    (t.relabel nl).leafExtras = t.leafExtras := by
  cases t <;> rfl

theorem splitEdge_wf {A V : Type} (combine : A → A → A) (l : List Bool)
    (oldSub : AugTree A V) (key : List Bool) (extra : A) (value : V)
    (hold : AugWf combine oldSub) :
    AugWf combine (AugTree.splitEdge combine l oldSub key extra value) := by
  rw [AugTree.splitEdge]
  cases hb : key.getD l.length false with
  | true => exact ⟨rfl, hold, trivial⟩
  | false => exact ⟨rfl, trivial, hold⟩

theorem insertAug_wf {A V : Type} (combine : A → A → A)
    (t : AugTree A V) (key : List Bool) (extra : A) (value : V)
    (mode : SetMode) (t' : AugTree A V)
    (hwf : AugWf combine t)
    (h : AugTree.insertAug combine t key extra value mode = some t') :
    AugWf combine t' := by
  induction t generalizing key t' with
  | leaf lbl e v =>
    rw [AugTree.insertAug.eq_def] at h
    dsimp only at h
    by_cases heq : lbl = key
    · rw [if_pos heq] at h
      by_cases hm : mode = SetMode.add
      · rw [if_pos hm] at h
        exact Option.noConfusion h
      · rw [if_neg hm] at h
        cases h
        trivial
    · rw [if_neg heq] at h
      by_cases hm : mode = SetMode.replace
      · rw [if_pos hm] at h
        exact Option.noConfusion h
      · rw [if_neg hm] at h
        cases h
        exact splitEdge_wf combine _ _ key extra value trivial
  | fork lbl l r e ihl ihr =>
    obtain ⟨he, hl, hr⟩ := hwf
    rw [AugTree.insertAug.eq_def] at h
    dsimp only at h
    by_cases hful : (lcp key lbl).length = lbl.length
    · rw [if_pos hful] at h
      cases hdrop : key.drop lbl.length with
      | nil =>
        rw [hdrop] at h
        exact Option.noConfusion h
      | cons b krest =>
        rw [hdrop] at h
        cases b with
        | true =>
          simp only [AugTree.keyStep, cond_true] at h
          cases hrec : AugTree.insertAug combine r krest extra value mode with
          | none =>
            rw [hrec] at h
            exact Option.noConfusion h
          | some child' =>
            rw [hrec] at h
            simp only [Option.map] at h
            cases h
            exact ⟨rfl, hl, ihr krest child' hr hrec⟩
        | false =>
          simp only [AugTree.keyStep, cond_false] at h
          cases hrec : AugTree.insertAug combine l krest extra value mode with
          | none =>
            rw [hrec] at h
            exact Option.noConfusion h
          | some child' =>
            rw [hrec] at h
            simp only [Option.map] at h
            cases h
            exact ⟨rfl, ihl krest child' hl hrec, hr⟩
    · rw [if_neg hful] at h
      by_cases hm : mode = SetMode.replace
      · rw [if_pos hm] at h
        exact Option.noConfusion h
      · rw [if_neg hm] at h
        cases h
        exact splitEdge_wf combine _ _ key extra value ⟨he, hl, hr⟩

theorem removeAug_wf {A V : Type} (combine : A → A → A)
    (t : AugTree A V) (key : List Bool) (res : Option (AugTree A V)) (e : A)
    (v : V) (hwf : AugWf combine t)
    (h : AugTree.removeAug combine t key = some (res, e, v)) :
    ∀ t', res = some t' → AugWf combine t' := by
  induction t generalizing key res e v with
  | leaf lbl le lv =>
    rw [AugTree.removeAug.eq_def] at h
    dsimp only at h
    by_cases heq : lbl = key
    · rw [if_pos heq] at h
      cases h
      intro t' ht'
      exact Option.noConfusion ht'
    · rw [if_neg heq] at h
      exact Option.noConfusion h
  | fork lbl l r fe ihl ihr =>
    obtain ⟨he, hl, hr⟩ := hwf
    rw [AugTree.removeAug.eq_def] at h
    dsimp only at h
    by_cases hful : (lcp key lbl).length = lbl.length
    · rw [if_pos hful] at h
      cases hdrop : key.drop lbl.length with
      | nil =>
        rw [hdrop] at h
        exact Option.noConfusion h
      | cons b krest =>
        rw [hdrop] at h
        cases b with
        | true =>
          simp only [AugTree.keyStep, cond_true] at h
          cases hrec : AugTree.removeAug combine r krest with
          | none =>
            rw [hrec] at h
            exact Option.noConfusion h
          | some p =>
            obtain ⟨rc, re', rv'⟩ := p
            rw [hrec] at h
            simp only [Option.map] at h
            cases rc with
            | none =>
              rw [AugTree.remFromRight] at h
              cases h
              intro t' ht'
              cases ht'
              exact augwf_relabel combine l _ hl
            | some child' =>
              rw [AugTree.remFromRight] at h
              cases h
              intro t' ht'
              cases ht'
              exact ⟨rfl, hl, ihr krest (some child') _ _ hr hrec child' rfl⟩
        | false =>
          simp only [AugTree.keyStep, cond_false] at h
          cases hrec : AugTree.removeAug combine l krest with
          | none =>
            rw [hrec] at h
            exact Option.noConfusion h
          | some p =>
            obtain ⟨rc, re', rv'⟩ := p
            rw [hrec] at h
            simp only [Option.map] at h
            cases rc with
            | none =>
              rw [AugTree.remFromLeft] at h
              cases h
              intro t' ht'
              cases ht'
              exact augwf_relabel combine r _ hr
            | some child' =>
              rw [AugTree.remFromLeft] at h
              cases h
              intro t' ht'
              cases ht'
              exact ⟨rfl, ihl krest (some child') _ _ hl hrec child' rfl, hr⟩
    · rw [if_neg hful] at h
      exact Option.noConfusion h

/-- Well-formedness of a whole dictionary: the tree (if any) is
well-formed and the cached extra agrees with `update_root_extra`. -/
def AugDictWf {A V : Type} (combine : A → A → A) (dflt : A)
    (d : AugDict A V) : Prop :=
  (∀ t, d.root = some t → AugWf combine t) ∧
  d.extra = update_root_extra dflt d.root

/-- Leaf extras of the whole dictionary (empty list when empty). -/
def dictLeafExtras {A V : Type} (d : AugDict A V) : List A :=
  match d.root with
  | none => []
  | some t => t.leafExtras

/-- Claim C1: after every successful mutation through
`set`/`replace`/`add` (`insert_impl`) or `remove` (`remove_impl`) of a
well-formed augmented dictionary with an associative combinator, the
dictionary stays well-formed and `root_extra()` equals the fold of the
combinator over the extras of all leaves; for the empty dictionary it is
the default value of `A`. -/
theorem aug_root_extra_invariant {A V : Type} (combine : A → A → A)
    (dflt : A)
    (hassoc : ∀ x y z, combine (combine x y) z = combine x (combine y z))
    (d : AugDict A V) (hwf : AugDictWf combine dflt d) :
    (∀ key extra value mode d',
      AugDict.insert_impl combine dflt d key extra value mode = (d', true) →
      AugDictWf combine dflt d' ∧
      d'.extra = foldExtras combine dflt (dictLeafExtras d')) ∧
    (∀ key d' e v,
      AugDict.remove_impl combine dflt d key = (d', some (e, v)) →
      AugDictWf combine dflt d' ∧
      d'.extra = foldExtras combine dflt (dictLeafExtras d')) := by
  have hroot_fold : ∀ (r : Option (AugTree A V)),
      (∀ t, r = some t → AugWf combine t) →
      update_root_extra dflt r = foldExtras combine dflt
        (match r with | none => [] | some t => t.leafExtras) := by
    intro r hr
    cases r with
    | none => rfl
    | some t =>
      exact augwf_extra_eq_fold combine dflt hassoc t (hr t rfl)
  constructor
  · intro key extra value mode d' hins
    unfold AugDict.insert_impl at hins
    revert hins
    cases hroot : d.root with
    | none =>
      cases mode with
      | replace => intro hins; cases hins
      | set =>
        intro hins
        cases hins
        refine ⟨⟨?_, rfl⟩, ?_⟩
        · intro t ht
          cases ht
          trivial
        · rfl
      | add =>
        intro hins
        cases hins
        refine ⟨⟨?_, rfl⟩, ?_⟩
        · intro t ht
          cases ht
          trivial
        · rfl
    | some t =>
      dsimp only
      cases hins : AugTree.insertAug combine t key extra value mode with
      | none => intro h; cases h
      | some t' =>
        intro h
        cases h
        have hwt' : AugWf combine t' :=
          insertAug_wf combine t key extra value mode t'
            (hwf.1 t hroot) hins
        refine ⟨⟨fun u hu => by cases hu; exact hwt', rfl⟩, ?_⟩
        show update_root_extra dflt (some t') = _
        exact hroot_fold (some t') (fun u hu => by cases hu; exact hwt')
  · intro key d' e v hrem
    unfold AugDict.remove_impl at hrem
    revert hrem
    cases hroot : d.root with
    | none => intro h; cases h
    | some t =>
      dsimp only
      cases hrm : AugTree.removeAug combine t key with
      | none => intro h; cases h
      | some p =>
        obtain ⟨r, re, rv⟩ := p
        dsimp only
        intro h
        cases h
        have hwr : ∀ u, r = some u → AugWf combine u :=
          removeAug_wf combine t key r _ _ (hwf.1 t hroot) hrm
        refine ⟨⟨hwr, rfl⟩, ?_⟩
        show update_root_extra dflt r = _
        exact hroot_fold r hwr

/-- Witness for `aug_root_extra_invariant`: a concrete one-leaf dictionary
over `Nat` with addition as the (associative) combinator. -/
theorem aug_root_extra_invariant_witness :
    (∀ x y z : Nat, x + y + z = x + (y + z)) ∧
    AugDictWf (fun a b => a + b) 0
      ⟨some (AugTree.leaf [true] 5 (7 : Nat)), 5⟩ ∧
    ((∀ key extra value mode d',
      AugDict.insert_impl (fun a b => a + b) 0
        ⟨some (AugTree.leaf [true] 5 (7 : Nat)), 5⟩ key extra value mode =
          (d', true) →
      AugDictWf (fun a b => a + b) 0 d' ∧
      d'.extra = foldExtras (fun a b => a + b) 0 (dictLeafExtras d')) ∧
    (∀ key d' e v,
      AugDict.remove_impl (fun a b => a + b) 0
        ⟨some (AugTree.leaf [true] 5 (7 : Nat)), 5⟩ key = (d', some (e, v)) →
      AugDictWf (fun a b => a + b) 0 d' ∧
      d'.extra = foldExtras (fun a b => a + b) 0 (dictLeafExtras d'))) :=
  ⟨fun x y z => Nat.add_assoc x y z,
   ⟨fun t ht => by cases ht; trivial, rfl⟩,
   aug_root_extra_invariant (fun a b => a + b) 0
     (fun x y z => Nat.add_assoc x y z)
     ⟨some (AugTree.leaf [true] 5 7), 5⟩
     ⟨fun t ht => by cases ht; trivial, rfl⟩⟩


/-!
Usage tree (`cell/usage_tree.rs`).

`rc::UsageCell` keeps a four-slot cache `children: [Option<Rc<UsageCell>>; 4]`;
`load_reference(i)` returns the cached wrapper when present, and on the
first call with an existing child wraps the child, records the visit and
fills the slot; a missing child returns `None` without filling the slot
(the `?` operator returns early).  `sync::UsageCell` guards each slot with
a `Once`: the first call completes the `Once` even when the child is
missing, and later calls return the cached data without re-running the
closure.  Both are modelled as explicit state passing; the boolean in the
result records whether this call resolved the child (constructed the
wrapper and inserted the visit) — the `updated` flag of the sync version.
-/

/-- `rc::UsageCell`: the wrapped cell plus the child cache. -/
inductive RcUC where
  | mk : Cell → List (Option RcUC) → RcUC

/-- `sync::UsageCell`: the wrapped cell, the per-slot `Once` completion
states (`reference_states`) and the per-slot cached data
(`reference_data`). -/
inductive SyncUC where
  | mk : Cell → List Bool → List (Option SyncUC) → SyncUC

/-- The wrapped cell of an `rc` usage cell. -/
def RcUC.cell : RcUC → Cell
  | .mk c _ => c

/-- The child cache of an `rc` usage cell. -/
def RcUC.children : RcUC → List (Option RcUC)
  | .mk _ ch => ch

/-- The wrapped cell of a `sync` usage cell. -/
def SyncUC.cell : SyncUC → Cell
  | .mk c _ _ => c

/-- The `Once` completion flags of a `sync` usage cell. -/
def SyncUC.states : SyncUC → List Bool
  | .mk _ st _ => st

/-- The cached slot data of a `sync` usage cell. -/
def SyncUC.data : SyncUC → List (Option SyncUC)
  | .mk _ _ dt => dt

/-- A freshly wrapped cell (`UsageTreeState::wrap`, and the nested wrapper
built inside `load_reference`): all four slots unresolved. -/
def newRcUC (c : Cell) : RcUC := .mk c (List.replicate 4 none)

/-- A freshly wrapped cell for the sync implementation: all four `Once`
states fresh, no cached data. -/
def newSyncUC (c : Cell) : SyncUC :=
  .mk c (List.replicate 4 false) (List.replicate 4 none)

/-- `rc::UsageCell::load_reference`: out-of-range indices yield `None`; a
filled slot is returned as is; an empty slot looks up the child
(`reference_cloned`), returning `None` without caching when it is absent,
and otherwise wraps it, records the visit and fills the slot.  Returns the
result, the updated state and whether this call resolved the child. -/
def RcUC.load_reference (u : RcUC) (i : Nat) : Option RcUC × RcUC × Bool :=
  if i < 4 then
    match u.children.getD i none with
    | some w => (some w, u, false)
    | none =>
      match u.cell.references.get? i with
      | none => (none, u, false)
      | some child =>
        let w := newRcUC child
        (some w, .mk u.cell (u.children.set i (some w)), true)
  else
    (none, u, false)

/-- `sync::UsageCell::load_reference` in sequential execution:
out-of-range indices yield `None`; a completed `Once` returns the cached
data without running the closure; otherwise the closure runs once —
completing the `Once` even when the child is absent — and a present child
is wrapped, stored and reported through the `updated` flag. -/
def SyncUC.load_reference (u : SyncUC) (i : Nat) : Option SyncUC × SyncUC × Bool :=
  if i < 4 then
    if u.states.getD i false then
      (u.data.getD i none, u, false)
    else
      match u.cell.references.get? i with
      | none => (none, .mk u.cell (u.states.set i true) u.data, false)
      | some child =>
        let w := newSyncUC child
        (some w, .mk u.cell (u.states.set i true) (u.data.set i (some w)), true)
  else
    (none, u, false)

theorem getD_replicate_self {A : Type} (n i : Nat) (d : A) :
    (List.replicate n d).getD i d = d := by
  simp only [List.getD_eq_getElem?_getD, List.getElem?_replicate]
  split <;> rfl

theorem slotGetD_set_self {A : Type} (l : List A) (i : Nat) (a d : A)
    (h : i < l.length) : (l.set i a).getD i d = a := by
  simp [List.getD_eq_getElem?_getD, List.getElem?_set_self', h]

theorem slotGetD_set_other {A : Type} (l : List A) (i j : Nat) (a d : A)
    (h : j ≠ i) : (l.set i a).getD j d = l.getD j d := by
  simp [List.getD_eq_getElem?_getD, List.getElem?_set_ne (fun hq => h hq.symm)]

theorem rc_load_big (u : RcUC) (i : Nat) (h : 4 ≤ i) :
    u.load_reference i = (none, u, false) := by
  unfold RcUC.load_reference
  rw [if_neg (by omega)]

theorem rc_load_cached (u : RcUC) (i : Nat) (w : RcUC) (hi : i < 4)
    (hs : u.children.getD i none = some w) :
    u.load_reference i = (some w, u, false) := by
  unfold RcUC.load_reference
  rw [if_pos hi, hs]

theorem rc_load_miss (u : RcUC) (i : Nat) (hi : i < 4)
    (hs : u.children.getD i none = none)
    (hr : u.cell.references.get? i = none) :
    u.load_reference i = (none, u, false) := by
  unfold RcUC.load_reference
  rw [if_pos hi, hs, hr]

theorem rc_load_new (u : RcUC) (i : Nat) (child : Cell) (hi : i < 4)
    (hs : u.children.getD i none = none)
    (hr : u.cell.references.get? i = some child) :
    u.load_reference i =
      (some (newRcUC child),
       .mk u.cell (u.children.set i (some (newRcUC child))), true) := by
  unfold RcUC.load_reference
  rw [if_pos hi, hs, hr]

theorem sync_load_big (u : SyncUC) (i : Nat) (h : 4 ≤ i) :
    u.load_reference i = (none, u, false) := by
  unfold SyncUC.load_reference
  rw [if_neg (by omega)]

theorem sync_load_done (u : SyncUC) (i : Nat) (hi : i < 4)
    (hs : u.states.getD i false = true) :
    u.load_reference i = (u.data.getD i none, u, false) := by
  unfold SyncUC.load_reference
  rw [if_pos hi, if_pos hs]

theorem sync_load_first_miss (u : SyncUC) (i : Nat) (hi : i < 4)
    (hs : u.states.getD i false = false)
    (hr : u.cell.references.get? i = none) :
    u.load_reference i =
      (none, .mk u.cell (u.states.set i true) u.data, false) := by
  unfold SyncUC.load_reference
  rw [if_pos hi, if_neg (by rw [hs]; exact Bool.false_ne_true), hr]

theorem sync_load_first_new (u : SyncUC) (i : Nat) (child : Cell)
    (hi : i < 4) (hs : u.states.getD i false = false)
    (hr : u.cell.references.get? i = some child) :
    u.load_reference i =
      (some (newSyncUC child),
       .mk u.cell (u.states.set i true) (u.data.set i (some (newSyncUC child))),
       true) := by
  unfold SyncUC.load_reference
  rw [if_pos hi, if_neg (by rw [hs]; exact Bool.false_ne_true), hr]

/-- Observational correspondence between an `rc` wrapper and a `sync`
wrapper: same underlying cell, four slots each, and every slot is in a
matching state — untouched on both sides, negatively cached only on the
sync side (the child is absent, which `rc` re-checks on every call), or
resolved on both sides to fresh wrappers of the same child. -/
def UsageRel (u : RcUC) (s : SyncUC) : Prop :=
  u.cell = s.cell ∧
  u.children.length = 4 ∧ s.states.length = 4 ∧ s.data.length = 4 ∧
  ∀ i : Nat,
    (u.children.getD i none = none ∧ s.states.getD i false = false ∧
      s.data.getD i none = none) ∨
    (u.children.getD i none = none ∧ s.states.getD i false = true ∧
      s.data.getD i none = none ∧ u.cell.references.get? i = none) ∨
    (∃ child, u.cell.references.get? i = some child ∧
      u.children.getD i none = some (newRcUC child) ∧
      s.states.getD i false = true ∧
      s.data.getD i none = some (newSyncUC child))

theorem usage_rel_new (c : Cell) : UsageRel (newRcUC c) (newSyncUC c) := by
  refine ⟨rfl, rfl, rfl, rfl, fun i => ?_⟩
  exact Or.inl ⟨getD_replicate_self 4 i none, getD_replicate_self 4 i false,
    getD_replicate_self 4 i none⟩

theorem usage_rel_step (u : RcUC) (s : SyncUC) (hrel : UsageRel u s)
    (i : Nat) :
    ((u.load_reference i).1).map RcUC.cell =
      ((s.load_reference i).1).map SyncUC.cell ∧
    (u.load_reference i).2.2 = (s.load_reference i).2.2 ∧
    UsageRel (u.load_reference i).2.1 (s.load_reference i).2.1 := by
  obtain ⟨hcell, hulen, hslen, hdlen, hslots⟩ := hrel
  by_cases hi : i < 4
  · rcases hslots i with ⟨h1, h2, h3⟩ | ⟨h1, h2, h3, h4⟩ |
      ⟨child, h4, h1, h2, h3⟩
    · cases href : u.cell.references.get? i with
      | none =>
        rw [rc_load_miss u i hi h1 href,
          sync_load_first_miss s i hi h2 (by rw [← hcell]; exact href)]
        refine ⟨rfl, rfl, hcell, hulen, ?_, hdlen, fun j => ?_⟩
        · show (s.states.set i true).length = 4
          rw [List.length_set]; exact hslen
        · by_cases hj : j = i
          · subst hj
            exact Or.inr (Or.inl ⟨h1,
              slotGetD_set_self s.states j true false (by rw [hslen]; exact hi),
              h3, href⟩)
          · have hst : (s.states.set i true).getD j false = s.states.getD j false :=
              slotGetD_set_other s.states i j true false hj
            rcases hslots j with ⟨g1, g2, g3⟩ | ⟨g1, g2, g3, g4⟩ |
              ⟨ch, g4, g1, g2, g3⟩
            · exact Or.inl ⟨g1, hst.trans g2, g3⟩
            · exact Or.inr (Or.inl ⟨g1, hst.trans g2, g3, g4⟩)
            · exact Or.inr (Or.inr ⟨ch, g4, g1, hst.trans g2, g3⟩)
      | some child =>
        rw [rc_load_new u i child hi h1 href,
          sync_load_first_new s i child hi h2 (by rw [← hcell]; exact href)]
        refine ⟨rfl, rfl, hcell, ?_, ?_, ?_, fun j => ?_⟩
        · show (u.children.set i (some (newRcUC child))).length = 4
          rw [List.length_set]; exact hulen
        · show (s.states.set i true).length = 4
          rw [List.length_set]; exact hslen
        · show (s.data.set i (some (newSyncUC child))).length = 4
          rw [List.length_set]; exact hdlen
        · by_cases hj : j = i
          · subst hj
            refine Or.inr (Or.inr ⟨child, href, ?_, ?_, ?_⟩)
            · exact slotGetD_set_self u.children j (some (newRcUC child)) none
                (by rw [hulen]; exact hi)
            · exact slotGetD_set_self s.states j true false
                (by rw [hslen]; exact hi)
            · exact slotGetD_set_self s.data j (some (newSyncUC child)) none
                (by rw [hdlen]; exact hi)
          · have hch : (u.children.set i (some (newRcUC child))).getD j none =
                u.children.getD j none :=
              slotGetD_set_other u.children i j (some (newRcUC child)) none hj
            have hst : (s.states.set i true).getD j false =
                s.states.getD j false :=
              slotGetD_set_other s.states i j true false hj
            have hdt : (s.data.set i (some (newSyncUC child))).getD j none =
                s.data.getD j none :=
              slotGetD_set_other s.data i j (some (newSyncUC child)) none hj
            rcases hslots j with ⟨g1, g2, g3⟩ | ⟨g1, g2, g3, g4⟩ |
              ⟨ch, g4, g1, g2, g3⟩
            · exact Or.inl ⟨hch.trans g1, hst.trans g2, hdt.trans g3⟩
            · exact Or.inr (Or.inl ⟨hch.trans g1, hst.trans g2,
                hdt.trans g3, g4⟩)
            · exact Or.inr (Or.inr ⟨ch, g4, hch.trans g1, hst.trans g2,
                hdt.trans g3⟩)
    · rw [rc_load_miss u i hi h1 h4, sync_load_done s i hi h2, h3]
      exact ⟨rfl, rfl, hcell, hulen, hslen, hdlen, hslots⟩
    · rw [rc_load_cached u i (newRcUC child) hi h1,
        sync_load_done s i hi h2, h3]
      exact ⟨rfl, rfl, hcell, hulen, hslen, hdlen, hslots⟩
  · rw [rc_load_big u i (by omega), sync_load_big s i (by omega)]
    exact ⟨rfl, rfl, hcell, hulen, hslen, hdlen, hslots⟩

/-- Claim C9: for child indices `i < 4` with an existing child the slot is
resolved exactly once — the first call wraps the child and caches the
wrapper, and any repeated call returns the same cached result without
resolving again; `load_reference` returns `None` for `i ≥ 4`; and in
sequential execution the `rc` and `sync` implementations are observably
identical: fresh wrappers are related, and related states produce the
same result (up to the underlying cell), the same resolution flag, and
related successor states. -/
theorem usage_cell_resolve_once :
    (∀ (u : RcUC) (i : Nat), 4 ≤ i → u.load_reference i = (none, u, false)) ∧
    (∀ (u : SyncUC) (i : Nat), 4 ≤ i → u.load_reference i = (none, u, false)) ∧
    (∀ (c child : Cell) (i : Nat), i < 4 → c.references.get? i = some child →
      (newRcUC c).load_reference i =
        (some (newRcUC child),
         RcUC.mk c ((newRcUC c).children.set i (some (newRcUC child))),
         true) ∧
      (newSyncUC c).load_reference i =
        (some (newSyncUC child),
         SyncUC.mk c ((newSyncUC c).states.set i true)
           ((newSyncUC c).data.set i (some (newSyncUC child))), true)) ∧
    (∀ (u : RcUC) (i : Nat), u.children.length = 4 →
      ((u.load_reference i).2.1).load_reference i =
        ((u.load_reference i).1, (u.load_reference i).2.1, false)) ∧
    (∀ (u : SyncUC) (i : Nat), u.states.length = 4 → u.data.length = 4 →
      (u.states.getD i false = false → u.data.getD i none = none) →
      ((u.load_reference i).2.1).load_reference i =
        ((u.load_reference i).1, (u.load_reference i).2.1, false)) ∧
    (∀ c : Cell, UsageRel (newRcUC c) (newSyncUC c)) ∧
    (∀ (u : RcUC) (s : SyncUC), UsageRel u s → ∀ i : Nat,
      ((u.load_reference i).1).map RcUC.cell =
        ((s.load_reference i).1).map SyncUC.cell ∧
      (u.load_reference i).2.2 = (s.load_reference i).2.2 ∧
      UsageRel (u.load_reference i).2.1 (s.load_reference i).2.1) := by
  refine ⟨rc_load_big, sync_load_big, ?_, ?_, ?_, usage_rel_new,
    usage_rel_step⟩
  · intro c child i hi href
    constructor
    · exact rc_load_new (newRcUC c) i child hi
        (getD_replicate_self 4 i none) href
    · exact sync_load_first_new (newSyncUC c) i child hi
        (getD_replicate_self 4 i false) href
  · intro u i hlen
    by_cases hi : i < 4
    · cases hslot : u.children.getD i none with
      | some w =>
        rw [rc_load_cached u i w hi hslot]
        dsimp only
        exact rc_load_cached u i w hi hslot
      | none =>
        cases href : u.cell.references.get? i with
        | none =>
          rw [rc_load_miss u i hi hslot href]
          dsimp only
          exact rc_load_miss u i hi hslot href
        | some child =>
          rw [rc_load_new u i child hi hslot href]
          dsimp only
          exact rc_load_cached _ i (newRcUC child) hi
            (slotGetD_set_self u.children i (some (newRcUC child)) none
              (by rw [hlen]; exact hi))
    · rw [rc_load_big u i (by omega)]
      dsimp only
      exact rc_load_big u i (by omega)
  · intro u i hslen hdlen hinv
    by_cases hi : i < 4
    · cases hst : u.states.getD i false with
      | true =>
        rw [sync_load_done u i hi hst]
        dsimp only
        exact sync_load_done u i hi hst
      | false =>
        cases href : u.cell.references.get? i with
        | none =>
          rw [sync_load_first_miss u i hi hst href]
          dsimp only
          rw [sync_load_done (SyncUC.mk u.cell (u.states.set i true) u.data)
            i hi
            (slotGetD_set_self u.states i true false (by rw [hslen]; exact hi))]
          show (u.data.getD i none, _, false) = _
          rw [hinv hst]
        | some child =>
          rw [sync_load_first_new u i child hi hst href]
          dsimp only
          rw [sync_load_done (SyncUC.mk u.cell (u.states.set i true)
              (u.data.set i (some (newSyncUC child)))) i hi
            (slotGetD_set_self u.states i true false (by rw [hslen]; exact hi))]
          show ((u.data.set i (some (newSyncUC child))).getD i none, _, false) = _
          rw [slotGetD_set_self u.data i (some (newSyncUC child)) none
            (by rw [hdlen]; exact hi)]
    · rw [sync_load_big u i (by omega)]
      dsimp only
      exact sync_load_big u i (by omega)

/-- Witness for `usage_cell_resolve_once`: a concrete two-cell tree; the
first load of slot 0 resolves and caches the child in both
implementations, and slot 5 is rejected. -/
theorem usage_cell_resolve_once_witness :
    ((0 : Nat) < 4 ∧
      (Cell.mk [] 0 0 0 [Cell.mk [] 0 0 0 [] ⟨0, 1⟩] ⟨0, 2⟩).references.get? 0 =
        some (Cell.mk [] 0 0 0 [] ⟨0, 1⟩) ∧
      (newRcUC (Cell.mk [] 0 0 0 [Cell.mk [] 0 0 0 [] ⟨0, 1⟩] ⟨0, 2⟩)).load_reference 0 =
        (some (newRcUC (Cell.mk [] 0 0 0 [] ⟨0, 1⟩)),
         RcUC.mk (Cell.mk [] 0 0 0 [Cell.mk [] 0 0 0 [] ⟨0, 1⟩] ⟨0, 2⟩)
           ((newRcUC (Cell.mk [] 0 0 0 [Cell.mk [] 0 0 0 [] ⟨0, 1⟩] ⟨0, 2⟩)).children.set 0
             (some (newRcUC (Cell.mk [] 0 0 0 [] ⟨0, 1⟩)))), true)) ∧
    ((4 : Nat) ≤ 5 ∧
      (newRcUC (Cell.mk [] 0 0 0 [] ⟨0, 1⟩)).load_reference 5 =
        (none, newRcUC (Cell.mk [] 0 0 0 [] ⟨0, 1⟩), false)) :=
  ⟨⟨by omega, rfl,
    (usage_cell_resolve_once.2.2.1
      (Cell.mk [] 0 0 0 [Cell.mk [] 0 0 0 [] ⟨0, 1⟩] ⟨0, 2⟩)
      (Cell.mk [] 0 0 0 [] ⟨0, 1⟩) 0 (by omega) rfl).1⟩,
   ⟨by omega,
    usage_cell_resolve_once.1 (newRcUC (Cell.mk [] 0 0 0 [] ⟨0, 1⟩)) 5
      (by omega)⟩⟩


/-!
Finalizer and hashing (spec §4.2, §3).

The finalizer implementations (single-owner `Rc` family and shared `Arc`
family) are not among the provided sources, so the per-level hash and
depth are modelled from the spec: depth is `1 + max(children depth)` and
the hash is a digest over the descriptor pair, the data and the
children's depths and hashes at the level; the digest itself is an
abstract function parameter.  The two ownership families are modelled by
their observable hashing behaviour: the single-owner family computes the
hash of the finalized cell on demand, the shared family precomputes the
four-entry level table at finalization time and serves queries from it.
-/

theorem Cell.ref_sizeOf (c r : Cell) (h : r ∈ c.references) :
    sizeOf r < sizeOf c := by
  have h1 : sizeOf r < sizeOf c.references := List.sizeOf_lt_of_mem h
  cases c with
  | mk d bl x y refs st =>
    simp only [Cell.references] at h1
    simp only [Cell.mk.sizeOf_spec]
    omega

/-- Modelled from the spec: per-level depth, `1 + max(children depth at
that level)` and `0` for a cell without references. -/
def depthAt (c : Cell) (lvl : Nat) : Nat :=
  (c.references.attach.map (fun r => depthAt r.1 lvl + 1)).foldl Nat.max 0
termination_by sizeOf c
decreasing_by exact Cell.ref_sizeOf c r.1 r.2

/-- Modelled from the spec: the per-level representation hash — an
abstract digest `H` over the descriptor pair, the data, and the
children's depths and hashes at that level. -/
def hashAt (H : List Nat → Nat) (c : Cell) (lvl : Nat) : Nat :=
  H (c.d1 :: c.d2 :: (c.data ++
    c.references.attach.map (fun r => depthAt r.1 lvl) ++
    c.references.attach.map (fun r => hashAt H r.1 lvl)))
termination_by sizeOf c
decreasing_by exact Cell.ref_sizeOf c r.1 r.2

/-- The depth recursion in terms of plain maps over the references. -/
theorem depthAt_eq (c : Cell) (lvl : Nat) :
    depthAt c lvl =
      (c.references.map (fun r => depthAt r lvl + 1)).foldl Nat.max 0 := by
  rw [depthAt, List.attach_map_val c.references (fun r => depthAt r lvl + 1)]

/-- The hash is a digest of exactly the descriptor pair, the data, and
the children's depths and hashes at the level. -/
theorem hashAt_eq (H : List Nat → Nat) (c : Cell) (lvl : Nat) :
    hashAt H c lvl =
      H (c.d1 :: c.d2 :: (c.data ++
        c.references.map (fun r => depthAt r lvl) ++
        c.references.map (fun r => hashAt H r lvl))) := by
  rw [hashAt, List.attach_map_val c.references (fun r => depthAt r lvl),
    List.attach_map_val c.references (fun r => hashAt H r lvl)]

/-- One builder append call (the argument of a store operation). -/
inductive BuildOp where
  | bitZero
  | bitTrue
  | zeroes (bits : Nat)
  | smallUint (value bits : Nat)
  | uintOp (value bits : Nat)
  | u8op (value : Nat)
  | u16op (value : Nat)
  | u32op (value : Nat)
  | u64op (value : Nat)
  | u128op (value : Nat)
  | u256op (value : Nat)
  | ref (cell : Cell)

/-- Runs one append call against the builder (keeping the state part of
the store operation's result). -/
def applyOp (b : CellBuilder) : BuildOp → CellBuilder
  | .bitZero => (b.store_bit_zero).1
  | .bitTrue => (b.store_bit_true).1
  | .zeroes bits => (b.store_zeroes bits).1
  | .smallUint value bits => (b.store_small_uint value bits).1
  | .uintOp value bits => (b.store_uint value bits).1
  | .u8op value => (b.store_u8 value).1
  | .u16op value => (b.store_u16 value).1
  | .u32op value => (b.store_u32 value).1
  | .u64op value => (b.store_u64 value).1
  | .u128op value => (b.store_u128 value).1
  | .u256op value => (b.store_u256 value).1
  | .ref cell => (b.store_reference cell).1

/-- The builder obtained by running a sequence of append calls on a fresh
builder. -/
def runOps (ops : List BuildOp) : CellBuilder :=
  ops.foldl applyOp CellBuilder.new

/-- Modelled from the spec: the single-owner (`Rc`) finalizer family —
the hash of the finalized cell, computed on demand per level. -/
def finalizeHashRc (H : List Nat → Nat) (b : CellBuilder) (lvl : Nat) : Nat :=
  hashAt H b.build_ext lvl

/-- Modelled from the spec: the single-owner (`Rc`) finalizer family's
depth accessor. -/
def finalizeDepthRc (b : CellBuilder) (lvl : Nat) : Nat :=
  depthAt b.build_ext lvl

/-- Modelled from the spec: the shared (`Arc`) finalizer family — the
four-entry hash table precomputed at finalization time. -/
def finalizeArcHashes (H : List Nat → Nat) (b : CellBuilder) : List Nat :=
  (List.range 4).map (fun lvl => hashAt H b.build_ext lvl)

/-- Modelled from the spec: the shared (`Arc`) finalizer family's
precomputed depth table. -/
def finalizeArcDepths (b : CellBuilder) : List Nat :=
  (List.range 4).map (fun lvl => depthAt b.build_ext lvl)

/-- The shared family's hash accessor: a table lookup. -/
def finalizeHashArc (H : List Nat → Nat) (b : CellBuilder) (lvl : Nat) : Nat :=
  (finalizeArcHashes H b).getD lvl 0

/-- The shared family's depth accessor: a table lookup. -/
def finalizeDepthArc (b : CellBuilder) (lvl : Nat) : Nat :=
  (finalizeArcDepths b).getD lvl 0

/-- Claim C7: for every digest, every sequence of append calls and every
level below 4, the single-owner and shared finalizer families report the
same hash and the same depth for the built cell (so two builders fed the
same appends agree level by level, whichever ownership strategy
finalizes them); and the hash and depth at a level are pure functions of
the cell's descriptor, data and children's hashes/depths at that level —
two cells agreeing on those agree on hash and depth, whatever else (stats,
staged bit length, deeper structure) differs. -/
theorem finalize_hash_strategy_independent :
    (∀ (H : List Nat → Nat) (ops : List BuildOp) (lvl : Nat), lvl < 4 →
      finalizeHashRc H (runOps ops) lvl = finalizeHashArc H (runOps ops) lvl ∧
      finalizeDepthRc (runOps ops) lvl = finalizeDepthArc (runOps ops) lvl) ∧
    (∀ (H : List Nat → Nat) (c c' : Cell) (lvl : Nat),
      c.d1 = c'.d1 → c.d2 = c'.d2 → c.data = c'.data →
      c.references.map (fun r => hashAt H r lvl) =
        c'.references.map (fun r => hashAt H r lvl) →
      c.references.map (fun r => depthAt r lvl) =
        c'.references.map (fun r => depthAt r lvl) →
      hashAt H c lvl = hashAt H c' lvl ∧ depthAt c lvl = depthAt c' lvl) := by
  constructor
  · intro H ops lvl hlvl
    constructor
    · show hashAt H (runOps ops).build_ext lvl =
        ((List.range 4).map (fun l => hashAt H (runOps ops).build_ext l)).getD lvl 0
      rw [List.getD_eq_getElem?_getD, List.getElem?_map, List.getElem?_range hlvl]
      rfl
    · show depthAt (runOps ops).build_ext lvl =
        ((List.range 4).map (fun l => depthAt (runOps ops).build_ext l)).getD lvl 0
      rw [List.getD_eq_getElem?_getD, List.getElem?_map, List.getElem?_range hlvl]
      rfl
  · intro H c c' lvl h1 h2 hd hh hdep
    constructor
    · rw [hashAt_eq, hashAt_eq, h1, h2, hd, hh, hdep]
    · have hmap : c.references.map (fun r => depthAt r lvl + 1) =
          c'.references.map (fun r => depthAt r lvl + 1) := by
        have := congrArg (List.map (fun n => n + 1)) hdep
        simpa [List.map_map, Function.comp] using this
      rw [depthAt_eq, depthAt_eq, hmap]

/-- Witness for `finalize_hash_strategy_independent`: the length digest,
a two-call append sequence, level 0, and two concrete single-reference
cells differing only in stats. -/
theorem finalize_hash_strategy_independent_witness :
    ((0 : Nat) < 4 ∧
      finalizeHashRc List.length (runOps [BuildOp.bitTrue, BuildOp.u8op 170]) 0 =
        finalizeHashArc List.length (runOps [BuildOp.bitTrue, BuildOp.u8op 170]) 0) ∧
    ((Cell.mk [7] 8 0 16 [] ⟨8, 1⟩).d1 = (Cell.mk [7] 8 0 16 [] ⟨9, 5⟩).d1 ∧
      hashAt List.length (Cell.mk [7] 8 0 16 [] ⟨8, 1⟩) 0 =
        hashAt List.length (Cell.mk [7] 8 0 16 [] ⟨9, 5⟩) 0) :=
  ⟨⟨by omega,
    (finalize_hash_strategy_independent.1 List.length
      [BuildOp.bitTrue, BuildOp.u8op 170] 0 (by omega)).1⟩,
   ⟨rfl,
    (finalize_hash_strategy_independent.2 List.length
      (Cell.mk [7] 8 0 16 [] ⟨8, 1⟩) (Cell.mk [7] 8 0 16 [] ⟨9, 5⟩) 0
      rfl rfl rfl rfl rfl).1⟩⟩

end Everscale
